import Mathlib

/-
  Shallow embedding of the discord-faucet transfer-orchestration engine
  (src/faucet.rs) for verification of its specification.

  Conventions of the embedding:
  * `Address`, transaction hashes and `U256`/`U512` balances are modelled as
    `Nat`.  The code computes balances in `U256` (and the startup average in
    `U512`); wherever a bound matters (the `U256::try_from(...).expect(...)`
    conversion in `Faucet::create`, division by `num_clients` with no zero
    guard), the embedding makes the panic explicit by returning `none` and the
    `2 ^ 256` bound appears explicitly.
  * `HashMap`s are modelled as association lists with HashMap semantics:
    `alInsert` replaces the entry for an existing key, `alRemove` removes it.
  * `BinaryHeap<(U256, Address)>` is modelled as a list of pairs; `heapMax`
    returns the lexicographically greatest element (the heap's `peek`/`pop`
    element) and popping erases that element from the list.
  * Network round trips are oracle parameters: balance queries become a
    function `bal : Nat → Nat`, the submission outcome of
    `send_transaction` becomes an `Except String Nat` argument, receipts
    become an explicit `TransactionReceipt` value, and `Instant::now` becomes
    a `Nat` argument.  The async operations are modelled as atomic state
    transitions (the sequential abstraction of the lock-guarded code).
  * Rust panics (`unwrap` on `ClientPool::pop`, division by zero, the
    `expect` on the `U512 → U256` conversion) are modelled by `Option`
    results, `none` meaning a panic.
-/

namespace DiscordFaucet

/-! ### Association lists with HashMap semantics -/

def alLookup {V : Type} : List (Nat × V) → Nat → Option V
  | [], _ => none
  | e :: l, k => if e.1 = k then some e.2 else alLookup l k

def alRemove {V : Type} : List (Nat × V) → Nat → List (Nat × V)
  | [], _ => []
  | e :: l, k => if e.1 = k then l else e :: alRemove l k

def alInsert {V : Type} (l : List (Nat × V)) (k : Nat) (v : V) : List (Nat × V) :=
  (k, v) :: alRemove l k

def alKeys {V : Type} (l : List (Nat × V)) : List Nat := l.map (·.1)

/-! ### The binary max-heap of `(balance, address)` pairs -/

/-- One comparison step of the max computation: keep the lexicographically
greater of the two pairs, mirroring the `Ord` instance on `(U256, Address)`. -/
def heapTake (x y : Nat × Nat) : Nat × Nat :=
  if x.1 < y.1 ∨ (x.1 = y.1 ∧ x.2 < y.2) then y else x

/-- The element `BinaryHeap::peek`/`BinaryHeap::pop` returns: the greatest
pair in lexicographic order, `none` on the empty heap. -/
def heapMax : List (Nat × Nat) → Option (Nat × Nat)
  | [] => none
  | x :: l => some (l.foldl heapTake x)

/-- Lexicographic order on `(balance, address)` pairs. -/
def lexLe (x y : Nat × Nat) : Prop := x.1 < y.1 ∨ (x.1 = y.1 ∧ x.2 ≤ y.2)

/-- Remove the first occurrence of `x` (the element `BinaryHeap::pop`
consumed) from the heap's element list. -/
def heapErase : List (Nat × Nat) → Nat × Nat → List (Nat × Nat)
  | [], _ => []
  | y :: t, x => if y = x then t else y :: heapErase t x

/-! ### Data model (src/faucet.rs) -/

/-- A signing client; all the state machine uses of `Arc<Middleware>` go
through `client.address()`, modelled as the single field `address`. -/
structure Client where
  address : Nat
deriving DecidableEq

/-- `enum TransferRequest` from src/faucet.rs. -/
inductive TransferRequest where
  | Faucet (toAddress : Nat) (amount : Nat)
  | Funding (toAddress : Nat) (average_wallet_balance : Nat)
deriving DecidableEq

/-- `TransferRequest::to` (`to` is a reserved token in Lean). -/
def TransferRequest.toAddress : TransferRequest → Nat
  | .Faucet t _ => t
  | .Funding t _ => t

/-- `TransferRequest::required_funds`: double the faucet amount (gas reserve),
the average wallet balance for funding requests. -/
def TransferRequest.required_funds : TransferRequest → Nat
  | .Faucet _ amount => amount * 2
  | .Funding _ avg => avg

/-- `struct Transfer`: a submitted-but-unconfirmed transfer. -/
structure Transfer where
  sender : Client
  request : TransferRequest
  timestamp : Nat
deriving DecidableEq

/-- `enum TransferError`. -/
inductive TransferError where
  | RpcSubmitError (transfer : TransferRequest) (sender : Nat) (msg : String)
  | NoClient
  | NoRequests
deriving DecidableEq

/-- `struct ClientPool`: the address → client map plus the balance-keyed
priority heap. -/
structure ClientPool where
  clients : List (Nat × Client)
  priority : List (Nat × Nat)
deriving DecidableEq

/-- `ClientPool::pop`.  The heap entry is popped first; then the map entry is
removed via `?`, so when the map has no entry for the popped address the heap
entry is consumed but `none` is returned. -/
def ClientPool.pop (p : ClientPool) : Option (Nat × Client) × ClientPool :=
  match heapMax p.priority with
  | none => (none, p)
  | some ba =>
    let rest := heapErase p.priority ba
    match alLookup p.clients ba.2 with
    | none => (none, { clients := p.clients, priority := rest })
    | some c => (some (ba.1, c), { clients := alRemove p.clients ba.2, priority := rest })

/-- `ClientPool::push`: insert/replace the map entry keyed by the client's
address and push a `(balance, address)` pair onto the heap. -/
def ClientPool.push (p : ClientPool) (balance : Nat) (c : Client) : ClientPool :=
  { clients := alInsert p.clients c.address c,
    priority := p.priority ++ [(balance, c.address)] }

/-- `ClientPool::has_client_for`: does the best heap balance meet the
request's required funds. -/
def ClientPool.has_client_for (p : ClientPool) (transfer : TransferRequest) : Bool :=
  match heapMax p.priority with
  | none => false
  | some ba => decide (transfer.required_funds ≤ ba.1)

/-- `struct State`: the single shared aggregate. -/
structure State where
  clients : ClientPool
  inflight : List (Nat × Transfer)
  clients_being_funded : List (Nat × Client)
  transfer_queue : List TransferRequest
  monitoring_started : Bool
deriving DecidableEq

/-- The configuration fields of `struct Options` the state machine reads. -/
structure Options where
  num_clients : Nat
  faucet_grant_amount : Nat
  transaction_timeout : Nat
deriving DecidableEq

/-- `Options::min_funding_balance`: twice the grant amount. -/
def Options.min_funding_balance (o : Options) : Nat :=
  o.faucet_grant_amount * 2

/-- The receipt fields `Faucet::handle_tx` reads. -/
structure TransactionReceipt where
  status : Option Nat
  toAddress : Option Nat
deriving DecidableEq


/-! ### Operations (the four activities of `impl Faucet`) -/

/-- The queue-removal step of `handle_non_faucet_transfer`: remove the first
queued request whose recipient is `receiver`
(`transfer_queue.iter().position(|r| r.to() == receiver)` then `remove`). -/
def removeFirstTo (q : List TransferRequest) (receiver : Nat) : List TransferRequest :=
  match q.findIdx? (fun r => r.toAddress = receiver) with
  | some i => q.eraseIdx i
  | none => q

/-- The empty `State::default()`. -/
def State.initial : State :=
  { clients := ⟨[], []⟩, inflight := [], clients_being_funded := [],
    transfer_queue := [], monitoring_started := false }

/-- The `desired_balance` computation of `Faucet::create` (before the `U256`
conversion): the `U512` expression
`max(total_balance / num_clients * 8 / 10, min_funding_balance)`. -/
def desiredBalance (cfg : Options) (balances : List Nat) : Nat :=
  max (balances.sum / cfg.num_clients * 8 / 10) cfg.min_funding_balance

/-- The partition loop of `Faucet::create`: clients with balance below the
desired balance get a queued `Funding` request and go to `clients_being_funded`;
the rest go straight into the pool keyed by their observed balance. -/
def createStep (desired : Nat) (st : State) (bc : Nat × Client) : State :=
  if bc.1 < desired then
    { st with
      transfer_queue := st.transfer_queue ++ [.Funding bc.2.address desired],
      clients_being_funded := alInsert st.clients_being_funded bc.2.address bc.2 }
  else
    { st with clients := st.clients.push bc.1 bc.2 }

/-- The balance/client pairs built by the client-creation loop of
`Faucet::create`: the client derived at index `i` has address `addrOf i` and
queried balance `balOf i`. -/
def createClients (cfg : Options) (addrOf balOf : Nat → Nat) :
    List (Nat × Client) :=
  (List.range cfg.num_clients).map (fun i => (balOf i, Client.mk (addrOf i)))

/-- `Faucet::create`, with the chain interactions as oracles.  Returns `none`
when the code panics: division of the total balance by `num_clients = 0`, or
the `expect("average balance overflows U256")` on the `U512 → U256`
conversion of `desired_balance`. -/
def create (cfg : Options) (addrOf : Nat → Nat) (balOf : Nat → Nat) : Option State :=
  if cfg.num_clients = 0 then none
  else
    if 2 ^ 256 ≤
        desiredBalance cfg ((createClients cfg addrOf balOf).map (·.1)) then
      none
    else
      some ((createClients cfg addrOf balOf).foldl
        (createStep
          (desiredBalance cfg ((createClients cfg addrOf balOf).map (·.1))))
        State.initial)

/-- `Faucet::request_transfer`: push a request onto the back of the queue. -/
def request_transfer (st : State) (transfer : TransferRequest) : State :=
  { st with transfer_queue := st.transfer_queue ++ [transfer] }

/-- `Faucet::execute_transfer`.  `submit` is the outcome of
`send_transaction` (the returned transaction hash, or the RPC error message);
`now` is the submission instant.  The overall `none` models the
`state.clients.pop().unwrap()` panic (possible only on an ill-formed pool).
The amount actually sent (the faucet amount, or half the popped balance for a
funding transfer) only goes to the chain and does not affect the state. -/
def execute_transfer (st : State) (now : Nat) (submit : Except String Nat) :
    Option ((Except TransferError Nat) × State) :=
  match st.transfer_queue with
  | [] => some (.error .NoRequests, st)
  | transfer :: rest =>
    if ¬ st.clients.has_client_for transfer then some (.error .NoClient, st)
    else
      match st.clients.pop with
      | (none, _) => none
      | (some (balance, sender), pool') =>
        match submit with
        | .ok tx_hash =>
          some (.ok tx_hash,
            { st with clients := pool', transfer_queue := rest,
                      inflight := alInsert st.inflight tx_hash ⟨sender, transfer, now⟩ })
        | .error msg =>
          some (.error (.RpcSubmitError transfer sender.address msg),
            { st with clients := pool'.push balance sender,
                      transfer_queue := rest ++ [transfer] })

/-- `Faucet::handle_non_faucet_transfer`: an external incoming transfer to a
client being funded.  `bal` is the fresh balance query oracle. -/
def handle_non_faucet_transfer (cfg : Options) (st : State)
    (receipt : TransactionReceipt) (bal : Nat → Nat) : State :=
  match receipt.toAddress with
  | none => st
  | some receiver =>
    match alLookup st.clients_being_funded receiver with
    | none => st
    | some client =>
      let balance := bal receiver
      if cfg.min_funding_balance ≤ balance then
        { st with
          transfer_queue := removeFirstTo st.transfer_queue receiver,
          clients_being_funded := alRemove st.clients_being_funded receiver,
          clients := st.clients.push balance client }
      else st

/-- The inflight branch of `Faucet::handle_tx` (the reconciliation of a
system-submitted transfer `tr` found in `inflight` under `tx_hash`): re-query
the sender's balance and return the sender to the pool; on a success status
for a `Funding` request, also promote the recipient from
`clients_being_funded` into the pool keyed by its fresh balance (skipping if
it is unknown); on a failure status, re-append the original request to the
back of the queue; finally remove the entry from `inflight`. -/
def handle_inflight_transfer (st : State) (tx_hash : Nat)
    (receipt : TransactionReceipt) (bal : Nat → Nat) (tr : Transfer) : State :=
  let new_sender_balance := bal tr.sender.address
  let receiver_update : Option (Nat × Nat) :=
    if receipt.status = some 1 then
      match tr.request with
      | .Funding receiver _ => some (receiver, bal receiver)
      | _ => none
    else none
  let st1 := { st with clients := st.clients.push new_sender_balance tr.sender }
  let st2 :=
    match receiver_update with
    | some rb =>
      match alLookup st1.clients_being_funded rb.1 with
      | some client =>
        { st1 with
          clients_being_funded := alRemove st1.clients_being_funded rb.1,
          clients := st1.clients.push rb.2 client }
      | none => st1
    | none => st1
  let st3 :=
    if receipt.status = some 0 then
      { st2 with transfer_queue := st2.transfer_queue ++ [tr.request] }
    else st2
  { st3 with inflight := alRemove st3.inflight tx_hash }

/-- `Faucet::handle_tx`: reconcile one confirmed transaction.  `tx_hash` and
`tx_to` are the transaction's hash and recipient, `receipt` the fetched
receipt, `bal` the fresh balance query oracle. -/
def handle_tx (cfg : Options) (st : State) (tx_hash : Nat) (tx_to : Option Nat)
    (receipt : TransactionReceipt) (bal : Nat → Nat) : State :=
  let inflight := alLookup st.inflight tx_hash
  let is_relevant := inflight.isSome ||
    (match tx_to with
     | some t => (alLookup st.clients_being_funded t).isSome
     | none => false)
  if ¬ is_relevant then st
  else
    match inflight with
    | none => handle_non_faucet_transfer cfg st receipt bal
    | some tr => handle_inflight_transfer st tx_hash receipt bal tr

/-- One iteration of the loop in `Faucet::process_transaction_timeouts`:
requeue the request, drop the inflight entry, return the sender to the pool
keyed by its freshly queried balance. -/
def timeoutStep (bal : Nat → Nat) (st : State) (e : Nat × Transfer) : State :=
  { st with
    transfer_queue := st.transfer_queue ++ [e.2.request],
    inflight := alRemove st.inflight e.1,
    clients := st.clients.push (bal e.2.sender.address) e.2.sender }

/-- The snapshot of timed-out entries: the cloned `inflight` map filtered by
`transfer.timestamp.elapsed() > transaction_timeout`. -/
def timedOut (cfg : Options) (st : State) (now : Nat) : List (Nat × Transfer) :=
  st.inflight.filter (fun e => decide (cfg.transaction_timeout < now - e.2.timestamp))

/-- `Faucet::process_transaction_timeouts`: sweep the timed-out snapshot. -/
def process_transaction_timeouts (cfg : Options) (st : State) (now : Nat)
    (bal : Nat → Nat) : State :=
  (timedOut cfg st now).foldl (timeoutStep bal) st


/-! ### Custody accounting and well-formedness -/

/-- Whether address `a` is in the available pool (has a map entry). -/
def State.inPool (st : State) (a : Nat) : Bool :=
  (alLookup st.clients.clients a).isSome

/-- Whether address `a` is a client being funded. -/
def State.inBeingFunded (st : State) (a : Nat) : Bool :=
  (alLookup st.clients_being_funded a).isSome

/-- The number of inflight entries whose sender has address `a`. -/
def State.inflightCount (st : State) (a : Nat) : Nat :=
  st.inflight.countP (fun e => decide (e.2.sender.address = a))

/-- How many of the three custody containers hold address `a`:
pool occurrences (0 or 1) + being-funded occurrences (0 or 1) + inflight
sender occurrences. -/
def ownerCount (st : State) (a : Nat) : Nat :=
  (if st.inPool a then 1 else 0) + (if st.inBeingFunded a then 1 else 0) +
    st.inflightCount a

/-- Well-formedness of the pool: map keys and heap addresses are duplicate
free and coincide, and every map entry is keyed by its client's address. -/
def PoolWF (p : ClientPool) : Prop :=
  (alKeys p.clients).Nodup ∧
  (p.priority.map (·.2)).Nodup ∧
  (∀ a ∈ alKeys p.clients, a ∈ p.priority.map (·.2)) ∧
  (∀ x ∈ p.priority, x.2 ∈ alKeys p.clients) ∧
  (∀ kv ∈ p.clients, kv.2.address = kv.1)

instance decidablePoolWF (p : ClientPool) : Decidable (PoolWF p) := by
  unfold PoolWF
  exact inferInstance

/-- The inductive invariant: a well-formed pool, duplicate-free inflight and
being-funded keys, address-keyed being-funded entries, and the exclusive
custody bound. -/
def StateWF (st : State) : Prop :=
  PoolWF st.clients ∧
  (alKeys st.inflight).Nodup ∧
  (alKeys st.clients_being_funded).Nodup ∧
  (∀ kv ∈ st.clients_being_funded, kv.2.address = kv.1) ∧
  (∀ a, ownerCount st a ≤ 1)

/-- The states reachable by the faucet's state-changing operations:
construction (with `addrOf`/`balOf` the address-derivation and
startup-balance oracles), transfer execution, transaction reconciliation
(including `handle_non_faucet_transfer`, reached through `handle_tx`), and
the timeout sweep.  The environment facts reflected as hypotheses: the
derivation of distinct accounts yields distinct addresses, and the chain
never reports a transaction hash that is already inflight (hashes are
collision free). -/
inductive Reachable (cfg : Options) (addrOf balOf : Nat → Nat) :
    State → Prop where
  | created (st : State)
      (haddr : ∀ i j, i < cfg.num_clients → j < cfg.num_clients →
        addrOf i = addrOf j → i = j)
      (hc : create cfg addrOf balOf = some st) :
      Reachable cfg addrOf balOf st
  | executed (st : State) (now : Nat) (submit : Except String Nat)
      (res : Except TransferError Nat) (st' : State)
      (hr : Reachable cfg addrOf balOf st)
      (hfresh : ∀ h, submit = .ok h → alLookup st.inflight h = none)
      (he : execute_transfer st now submit = some (res, st')) :
      Reachable cfg addrOf balOf st'
  | handled (st : State) (tx_hash : Nat) (tx_to : Option Nat)
      (receipt : TransactionReceipt) (bal : Nat → Nat)
      (hr : Reachable cfg addrOf balOf st) :
      Reachable cfg addrOf balOf (handle_tx cfg st tx_hash tx_to receipt bal)
  | timedout (st : State) (now : Nat) (bal : Nat → Nat)
      (hr : Reachable cfg addrOf balOf st) :
      Reachable cfg addrOf balOf
        (process_transaction_timeouts cfg st now bal)


/-! ### Concrete scenarios from the specification's testable properties -/

/-- A pool built by pushing balance 5 for address 1, balance 10 for the same
address 1 (overwriting the map entry while duplicating the heap entry), and
balance 3 for address 2. -/
def examplePoolStale : ClientPool :=
  ((ClientPool.mk [] []).push 5 ⟨1⟩).push 10 ⟨1⟩ |>.push 3 ⟨2⟩

/-- A pool holding clients with balances 10, 7, 3 at addresses 1, 2, 3. -/
def examplePoolGreedy : ClientPool :=
  ((ClientPool.mk [] []).push 10 ⟨1⟩).push 7 ⟨2⟩ |>.push 3 ⟨3⟩

/-- The greedy-selection scenario: pool balances 10, 7, 3 and one queued
request requiring 5. -/
def exampleStateGreedy : State :=
  { State.initial with
    clients := examplePoolGreedy,
    transfer_queue := [.Funding 99 5] }

/-- The head-of-line scenario: a queued request requiring 100 in front of one
requiring 1, with a single balance-10 client available. -/
def exampleStateHol : State :=
  { State.initial with
    clients := (ClientPool.mk [] []).push 10 ⟨1⟩,
    transfer_queue := [.Funding 7 100, .Funding 8 1] }

/-- An inflight `Funding` transfer (hash 7, sender address 3) to the
being-funded account 5, while a `Funding` request addressed to account 5 is
still queued. -/
def exampleStateInflightFunding : State :=
  { State.initial with
    inflight := [(7, ⟨⟨3⟩, .Funding 5 20, 0⟩)],
    clients_being_funded := [(5, ⟨5⟩)],
    transfer_queue := [.Funding 5 20] }

/-- Balance oracle for the inflight-funding scenario: account 5 now holds 25,
everything else 9. -/
def exampleBalFunding : Nat → Nat := fun a => if a = 5 then 25 else 9

/-- Two inflight transfers, submitted at instants 0 and 100. -/
def exampleStateTimeouts : State :=
  { State.initial with
    inflight := [(1, ⟨⟨3⟩, .Faucet 9 4, 0⟩), (2, ⟨⟨4⟩, .Funding 9 4, 100⟩)] }

/-! ### Association-list lemmas -/

theorem alLookup_mem {V : Type} {l : List (Nat × V)} {k : Nat} {v : V}
    (h : alLookup l k = some v) : (k, v) ∈ l := by
  induction l with
  | nil => simp [alLookup] at h
  | cons e t ih =>
    obtain ⟨a, b⟩ := e
    by_cases he : a = k
    · subst he
      simp only [alLookup, if_pos rfl] at h
      obtain rfl : b = v := by injection h
      exact List.mem_cons_self _ _
    · simp only [alLookup, if_neg he] at h
      exact List.mem_cons_of_mem _ (ih h)

theorem alLookup_eq_none {V : Type} {l : List (Nat × V)} {k : Nat}
    (h : ∀ e ∈ l, e.1 ≠ k) : alLookup l k = none := by
  induction l with
  | nil => rfl
  | cons e t ih =>
    simp only [alLookup, if_neg (h e (List.mem_cons_self e t))]
    exact ih fun e' he' => h e' (List.mem_cons_of_mem _ he')

theorem alLookup_ne_of_none {V : Type} {l : List (Nat × V)} {k : Nat}
    (h : alLookup l k = none) : ∀ e ∈ l, e.1 ≠ k := by
  induction l with
  | nil => simp
  | cons e t ih =>
    intro e' he'
    by_cases hek : e.1 = k
    · simp [alLookup, if_pos hek] at h
    · simp only [alLookup, if_neg hek] at h
      rcases List.mem_cons.mp he' with rfl | he'
      · exact hek
      · exact ih h e' he'

theorem alLookup_of_mem_nodup {V : Type} {l : List (Nat × V)} {k : Nat} {v : V}
    (hnd : (alKeys l).Nodup) (hm : (k, v) ∈ l) : alLookup l k = some v := by
  induction l with
  | nil => simp at hm
  | cons e t ih =>
    simp only [alKeys, List.map_cons, List.nodup_cons] at hnd
    rcases List.mem_cons.mp hm with he | hm
    · rw [← he]
      simp [alLookup]
    · have hek : e.1 ≠ k := by
        intro h
        exact hnd.1 (h ▸ (List.mem_map.mpr ⟨(k, v), hm, rfl⟩))
      simp only [alLookup, if_neg hek]
      exact ih hnd.2 hm

theorem alLookup_isSome_iff {V : Type} (l : List (Nat × V)) (k : Nat) :
    (alLookup l k).isSome ↔ k ∈ alKeys l := by
  induction l with
  | nil => simp [alLookup, alKeys]
  | cons e t ih =>
    simp only [alLookup, alKeys, List.map_cons, List.mem_cons]
    by_cases hek : e.1 = k
    · simp [hek]
    · have h2 : ¬ (k = e.1) := fun hh => hek hh.symm
      simp only [if_neg hek, ih, alKeys]
      simp [h2]

theorem alRemove_sublist {V : Type} (l : List (Nat × V)) (k : Nat) :
    List.Sublist (alRemove l k) l := by
  induction l with
  | nil => exact List.Sublist.refl _
  | cons e t ih =>
    by_cases hek : e.1 = k
    · simp only [alRemove, if_pos hek]
      exact List.sublist_cons_self e t
    · simp only [alRemove, if_neg hek]
      exact List.Sublist.cons₂ e ih

theorem alKeys_nodup_alRemove {V : Type} {l : List (Nat × V)} (k : Nat)
    (h : (alKeys l).Nodup) : (alKeys (alRemove l k)).Nodup := by
  simp only [alKeys] at h ⊢
  exact ((alRemove_sublist l k).map (·.1)).nodup h

theorem alLookup_alRemove_ne {V : Type} (l : List (Nat × V)) {k k' : Nat}
    (h : k' ≠ k) : alLookup (alRemove l k) k' = alLookup l k' := by
  induction l with
  | nil => rfl
  | cons e t ih =>
    by_cases hek : e.1 = k
    · have h2 : ¬ e.1 = k' := by rw [hek]; exact fun hh => h hh.symm
      simp only [alRemove, if_pos hek, alLookup, if_neg h2]
    · simp only [alRemove, if_neg hek, alLookup]
      by_cases hek' : e.1 = k'
      · simp only [if_pos hek']
      · simp only [if_neg hek', ih]

theorem alLookup_split {V : Type} {l : List (Nat × V)} {k : Nat} {v : V}
    (h : alLookup l k = some v) :
    ∃ l₁ l₂, l = l₁ ++ (k, v) :: l₂ ∧ (∀ e ∈ l₁, e.1 ≠ k) ∧
      alRemove l k = l₁ ++ l₂ := by
  induction l with
  | nil => simp [alLookup] at h
  | cons e t ih =>
    obtain ⟨a, b⟩ := e
    by_cases hek : a = k
    · subst hek
      simp only [alLookup, if_pos rfl] at h
      obtain rfl : b = v := by injection h
      exact ⟨[], t, by simp, by simp, by simp [alRemove]⟩
    · simp only [alLookup, if_neg hek] at h
      obtain ⟨l₁, l₂, hsplit, h1, h2⟩ := ih h
      refine ⟨(a, b) :: l₁, l₂, by rw [hsplit]; rfl, ?_, ?_⟩
      · intro e' he'
        rcases List.mem_cons.mp he' with rfl | he'
        · exact hek
        · exact h1 e' he'
      · simp [alRemove, if_neg hek, h2]

theorem alLookup_alRemove_self {V : Type} {l : List (Nat × V)} {k : Nat}
    (hnd : (alKeys l).Nodup) : alLookup (alRemove l k) k = none := by
  cases hl : alLookup l k with
  | none =>
    exact alLookup_eq_none fun e he =>
      alLookup_ne_of_none hl e ((alRemove_sublist l k).mem he)
  | some v =>
    obtain ⟨l₁, l₂, hsplit, h1, h2⟩ := alLookup_split hl
    rw [h2]
    refine alLookup_eq_none fun e he => ?_
    rcases List.mem_append.mp he with he | he
    · exact h1 e he
    · intro hek
      rw [hsplit] at hnd
      simp only [alKeys, List.map_append, List.map_cons, List.nodup_append,
        List.nodup_cons] at hnd
      exact hnd.2.1.1 (List.mem_map.mpr ⟨e, he, hek⟩)

theorem alRemove_of_lookup_none {V : Type} {l : List (Nat × V)} {k : Nat}
    (h : alLookup l k = none) : alRemove l k = l := by
  induction l with
  | nil => rfl
  | cons e t ih =>
    by_cases hek : e.1 = k
    · simp [alLookup, if_pos hek] at h
    · simp only [alLookup, if_neg hek] at h
      simp [alRemove, if_neg hek, ih h]

theorem alLookup_alInsert_self {V : Type} (l : List (Nat × V)) (k : Nat) (v : V) :
    alLookup (alInsert l k v) k = some v := by
  simp [alInsert, alLookup]

theorem alLookup_alInsert_ne {V : Type} (l : List (Nat × V)) {k k' : Nat} (v : V)
    (h : k' ≠ k) : alLookup (alInsert l k v) k' = alLookup l k' := by
  have h2 : ¬ (k = k') := fun hh => h hh.symm
  simp only [alInsert, alLookup, h2, if_false]
  · exact alLookup_alRemove_ne l h

theorem not_mem_alKeys_alRemove_self {V : Type} {l : List (Nat × V)} {k : Nat}
    (hnd : (alKeys l).Nodup) : k ∉ alKeys (alRemove l k) := by
  intro hmem
  have := (alLookup_isSome_iff (alRemove l k) k).mpr hmem
  rw [alLookup_alRemove_self hnd] at this
  simp at this

theorem alKeys_nodup_alInsert {V : Type} {l : List (Nat × V)} (k : Nat) (v : V)
    (hnd : (alKeys l).Nodup) : (alKeys (alInsert l k v)).Nodup := by
  simp only [alInsert, alKeys, List.map_cons, List.nodup_cons]
  exact ⟨not_mem_alKeys_alRemove_self hnd, alKeys_nodup_alRemove k hnd⟩

theorem alInsert_of_lookup_none {V : Type} {l : List (Nat × V)} {k : Nat} (v : V)
    (h : alLookup l k = none) : alInsert l k v = (k, v) :: l := by
  simp [alInsert, alRemove_of_lookup_none h]

theorem countP_alRemove {V : Type} {l : List (Nat × V)} {k : Nat} {v : V}
    (hl : alLookup l k = some v) (p : Nat × V → Bool) :
    (alRemove l k).countP p + (if p (k, v) then 1 else 0) = l.countP p := by
  obtain ⟨l₁, l₂, hsplit, -, h2⟩ := alLookup_split hl
  rw [h2, hsplit]
  simp only [List.countP_append, List.countP_cons]
  split <;> omega


/-! ### Heap lemmas -/

theorem lexLe_refl (x : Nat × Nat) : lexLe x x := Or.inr ⟨rfl, le_refl _⟩

theorem lexLe_trans {x y z : Nat × Nat} (h1 : lexLe x y) (h2 : lexLe y z) :
    lexLe x z := by
  unfold lexLe at *
  omega

theorem heapTake_or (x y : Nat × Nat) : heapTake x y = x ∨ heapTake x y = y := by
  unfold heapTake
  split
  · exact Or.inr rfl
  · exact Or.inl rfl

theorem lexLe_heapTake_left (x y : Nat × Nat) : lexLe x (heapTake x y) := by
  unfold heapTake lexLe
  split
  · omega
  · exact lexLe_refl x

theorem lexLe_heapTake_right (x y : Nat × Nat) : lexLe y (heapTake x y) := by
  unfold heapTake lexLe
  split
  · exact lexLe_refl y
  · omega

theorem foldl_heapTake_spec (l : List (Nat × Nat)) :
    ∀ x : Nat × Nat,
      (l.foldl heapTake x = x ∨ l.foldl heapTake x ∈ l) ∧
      lexLe x (l.foldl heapTake x) ∧ ∀ y ∈ l, lexLe y (l.foldl heapTake x) := by
  induction l with
  | nil => exact fun x => ⟨Or.inl rfl, lexLe_refl x, by simp⟩
  | cons a t ih =>
    intro x
    obtain ⟨h1, h2, h3⟩ := ih (heapTake x a)
    rw [List.foldl_cons]
    refine ⟨?_, lexLe_trans (lexLe_heapTake_left x a) h2, ?_⟩
    · rcases h1 with h | h
      · rcases heapTake_or x a with hx | hx
        · exact Or.inl (h.trans hx)
        · exact Or.inr (by rw [h, hx]; exact List.mem_cons_self a t)
      · exact Or.inr (List.mem_cons_of_mem _ h)
    · intro y hy
      rcases List.mem_cons.mp hy with rfl | hy
      · exact lexLe_trans (lexLe_heapTake_right x y) h2
      · exact h3 y hy

theorem heapMax_spec {l : List (Nat × Nat)} {m : Nat × Nat}
    (h : heapMax l = some m) : m ∈ l ∧ ∀ x ∈ l, lexLe x m := by
  cases l with
  | nil => simp [heapMax] at h
  | cons a t =>
    simp only [heapMax, Option.some.injEq] at h
    obtain ⟨h1, h2, h3⟩ := foldl_heapTake_spec t a
    subst h
    refine ⟨?_, ?_⟩
    · rcases h1 with h | h
      · rw [h]; exact List.mem_cons_self a t
      · exact List.mem_cons_of_mem _ h
    · intro x hx
      rcases List.mem_cons.mp hx with rfl | hx
      · exact h2
      · exact h3 x hx

theorem heapMax_none_iff (l : List (Nat × Nat)) : heapMax l = none ↔ l = [] := by
  cases l <;> simp [heapMax]


/-! ### ClientPool lemmas -/

theorem poolWF_lookup_iff {p : ClientPool} (h : PoolWF p) (a : Nat) :
    (alLookup p.clients a).isSome ↔ a ∈ p.priority.map (·.2) := by
  obtain ⟨-, -, h3, h4, -⟩ := h
  rw [alLookup_isSome_iff]
  constructor
  · exact h3 a
  · intro hmem
    obtain ⟨x, hx, rfl⟩ := List.mem_map.mp hmem
    exact h4 x hx

theorem poolWF_mk {p : ClientPool} (h1 : (alKeys p.clients).Nodup)
    (h2 : (p.priority.map (·.2)).Nodup)
    (h3 : ∀ a, (alLookup p.clients a).isSome ↔ a ∈ p.priority.map (·.2))
    (h4 : ∀ kv ∈ p.clients, kv.2.address = kv.1) : PoolWF p := by
  refine ⟨h1, h2, ?_, ?_, h4⟩
  · intro a hmem
    exact (h3 a).mp ((alLookup_isSome_iff _ _).mpr hmem)
  · intro x hx
    rw [← alLookup_isSome_iff]
    exact (h3 x.2).mpr (List.mem_map.mpr ⟨x, hx, rfl⟩)

theorem ClientPool.pop_spec {p : ClientPool} (hWF : PoolWF p)
    (hne : p.priority ≠ []) :
    ∃ b c,
      heapMax p.priority = some (b, c.address) ∧
      alLookup p.clients c.address = some c ∧
      p.pop = (some (b, c),
        ⟨alRemove p.clients c.address, heapErase p.priority (b, c.address)⟩) ∧
      (b, c.address) ∈ p.priority ∧
      (∀ x ∈ p.priority, lexLe x (b, c.address)) := by
  have hiff := poolWF_lookup_iff hWF
  obtain ⟨hnd1, hnd2, -, -, haddr⟩ := hWF
  cases hm : heapMax p.priority with
  | none => exact absurd ((heapMax_none_iff _).mp hm) hne
  | some ba =>
    obtain ⟨hmem, hmax⟩ := heapMax_spec hm
    have haddrmem : ba.2 ∈ p.priority.map (·.2) := List.mem_map.mpr ⟨ba, hmem, rfl⟩
    have hsome : (alLookup p.clients ba.2).isSome := (hiff ba.2).mpr haddrmem
    cases hl : alLookup p.clients ba.2 with
    | none => rw [hl] at hsome; simp at hsome
    | some c =>
      have hca : c.address = ba.2 := haddr (ba.2, c) (alLookup_mem hl)
      have hba : ba = (ba.1, c.address) := by rw [hca]
      refine ⟨ba.1, c, congrArg some hba,
        by rw [hca]; exact hl, ?_, by rw [← hba]; exact hmem,
        fun x hx => by rw [← hba]; exact hmax x hx⟩
      simp only [ClientPool.pop, hm, hca, hl]

theorem poolWF_push {p : ClientPool} (hWF : PoolWF p) (b : Nat) (c : Client)
    (hnot : alLookup p.clients c.address = none) : PoolWF (p.push b c) := by
  have hiff := poolWF_lookup_iff hWF
  obtain ⟨hnd1, hnd2, -, -, haddr⟩ := hWF
  have hnotmem : c.address ∉ p.priority.map (·.2) := by
    intro hmem
    have := (hiff c.address).mpr hmem
    rw [hnot] at this
    simp at this
  refine poolWF_mk (alKeys_nodup_alInsert _ _ hnd1) ?_ ?_ ?_
  · simp only [ClientPool.push, List.map_append, List.map_cons, List.map_nil]
    rw [List.nodup_append]
    refine ⟨hnd2, List.nodup_singleton _, ?_⟩
    intro a ha hmem
    rw [List.mem_singleton] at hmem
    exact hnotmem (hmem ▸ ha)
  · intro a
    simp only [ClientPool.push, List.map_append, List.map_cons, List.map_nil,
      List.mem_append, List.mem_singleton]
    by_cases hac : a = c.address
    · subst hac
      simp [alLookup_alInsert_self]
    · rw [alLookup_alInsert_ne _ _ hac, hiff a]
      simp [hac]
  · intro kv hkv
    simp only [ClientPool.push, alInsert] at hkv
    rcases List.mem_cons.mp hkv with rfl | hkv
    · rfl
    · exact haddr kv ((alRemove_sublist _ _).mem hkv)

theorem heapErase_sublist (l : List (Nat × Nat)) (x : Nat × Nat) :
    List.Sublist (heapErase l x) l := by
  induction l with
  | nil => exact List.Sublist.refl _
  | cons y t ih =>
    by_cases hyx : y = x
    · simp only [heapErase, if_pos hyx]
      exact List.sublist_cons_self y t
    · simp only [heapErase, if_neg hyx]
      exact List.Sublist.cons₂ y ih

theorem perm_cons_heapErase {l : List (Nat × Nat)} {x : Nat × Nat}
    (h : x ∈ l) : l.Perm (x :: heapErase l x) := by
  induction l with
  | nil => simp at h
  | cons y t ih =>
    by_cases hyx : y = x
    · subst hyx
      simp only [heapErase, if_pos rfl]
      exact List.Perm.refl _
    · have hxt : x ∈ t := by
        rcases List.mem_cons.mp h with h | h
        · exact absurd h.symm hyx
        · exact h
      simp only [heapErase, if_neg hyx]
      exact ((ih hxt).cons y).trans (List.Perm.swap x y (heapErase t x))

theorem poolWF_pop {p : ClientPool} (hWF : PoolWF p) {b : Nat} {c : Client}
    (hmem : (b, c.address) ∈ p.priority)
    (hl : alLookup p.clients c.address = some c) :
    PoolWF ⟨alRemove p.clients c.address, heapErase p.priority (b, c.address)⟩ := by
  have hiff := poolWF_lookup_iff hWF
  obtain ⟨hnd1, hnd2, -, -, haddr⟩ := hWF
  have hperm : p.priority.Perm ((b, c.address) :: heapErase p.priority (b, c.address)) :=
    perm_cons_heapErase hmem
  have hpermmap : (p.priority.map (·.2)).Perm
      (c.address :: (heapErase p.priority (b, c.address)).map (·.2)) := hperm.map _
  have hndmap : (c.address :: (heapErase p.priority (b, c.address)).map (·.2)).Nodup :=
    hpermmap.nodup_iff.mp hnd2
  refine poolWF_mk (alKeys_nodup_alRemove _ hnd1) ?_ ?_ ?_
  · exact ((heapErase_sublist _ _).map (·.2)).nodup hnd2
  · intro a
    by_cases hac : a = c.address
    · subst hac
      rw [alLookup_alRemove_self hnd1]
      simp only [Option.isSome_none, Bool.false_eq_true, false_iff]
      exact (List.nodup_cons.mp hndmap).1
    · rw [alLookup_alRemove_ne _ hac, hiff a]
      constructor
      · intro hmem'
        rcases List.mem_cons.mp (hpermmap.mem_iff.mp hmem') with h | h
        · exact absurd h hac
        · exact h
      · intro hmem'
        exact hpermmap.mem_iff.mpr (List.mem_cons_of_mem _ hmem')
  · exact fun kv hkv => haddr kv ((alRemove_sublist _ _).mem hkv)


/-! ### Claim C9: stale heap entries in ClientPool -/

/-- Claim C9: in the ClientPool operation sequence push balance 5 under
address 1, push balance 10 under the same address 1 again, push balance 3
under address 2, then pop twice, the second pop returns `none` while the pool
still contains the address-2 client: the duplicate push overwrote the
address-to-client map entry but left the old heap entry `(5, 1)` in place, so
the pop that draws the stale entry finds no map entry and returns `none`
instead of falling through to the next heap entry `(3, 2)`. -/
theorem clientPool_stale_entry_pop_none :
    examplePoolStale.pop.1 = some (10, ⟨1⟩) ∧
    examplePoolStale.pop.2.clients = [(2, ⟨2⟩)] ∧
    examplePoolStale.pop.2.priority = [(5, 1), (3, 2)] ∧
    examplePoolStale.pop.2.pop.1 = none ∧
    examplePoolStale.pop.2.pop.2.clients = [(2, ⟨2⟩)] ∧
    examplePoolStale.pop.2.pop.2.priority = [(3, 2)] := by
  decide

/-! ### Claim C5: strictly greedy selection -/

/-- Claim C5: on every well-formed non-empty pool, `pop` removes and returns
the single highest-balance client; and in the concrete scenario with pool
balances 10, 7, 3 (addresses 1, 2, 3) and a queued request requiring 5,
`execute_transfer` matches the balance-10 client at address 1 (it becomes the
inflight sender), never the balance-7 one. -/
theorem clientPool_pop_greedy :
    (∀ p : ClientPool, PoolWF p → p.priority ≠ [] →
      ∃ b c, p.pop.1 = some (b, c) ∧
        (∀ x ∈ p.priority, x.1 ≤ b) ∧
        (b, c.address) ∈ p.priority ∧
        alLookup p.clients c.address = some c ∧
        p.pop.2 = ⟨alRemove p.clients c.address,
          heapErase p.priority (b, c.address)⟩) ∧
    execute_transfer exampleStateGreedy 0 (.ok 42) =
      some (.ok 42,
        State.mk ⟨[(3, ⟨3⟩), (2, ⟨2⟩)], [(7, 2), (3, 3)]⟩
          [(42, ⟨⟨1⟩, .Funding 99 5, 0⟩)] [] [] false) := by
  constructor
  · intro p hWF hne
    obtain ⟨b, c, hmax', hl, hpop, hmem, hmax⟩ := ClientPool.pop_spec hWF hne
    refine ⟨b, c, by rw [hpop], ?_, hmem, hl, by rw [hpop]⟩
    intro x hx
    have := hmax x hx
    unfold lexLe at this
    omega
  · rfl

/-- Witness for the greedy-pop theorem at the concrete balance 10, 7, 3
pool. -/
theorem clientPool_pop_greedy_witness :
    ∃ b c, examplePoolGreedy.pop.1 = some (b, c) ∧
      (∀ x ∈ examplePoolGreedy.priority, x.1 ≤ b) ∧
      (b, c.address) ∈ examplePoolGreedy.priority ∧
      alLookup examplePoolGreedy.clients c.address = some c ∧
      examplePoolGreedy.pop.2 = ⟨alRemove examplePoolGreedy.clients c.address,
        heapErase examplePoolGreedy.priority (b, c.address)⟩ :=
  clientPool_pop_greedy.1 examplePoolGreedy (by decide) (by decide)

/-! ### Claim C8: NoRequests, NoClient, head-of-line blocking -/

/-- Claim C8: `execute_transfer` fails with `NoRequests` whenever the queue is
empty and with `NoClient` whenever the queue is non-empty but the best pool
balance is below the head request's required funds, leaving the state (queue
and pool) unchanged in both cases; concretely, with queue
`[requiring 100, requiring 1]` and only a balance-10 client, the too-expensive
head blocks the satisfiable request behind it. -/
theorem execute_transfer_errors :
    (∀ (st : State) (now : Nat) (submit : Except String Nat),
      st.transfer_queue = [] →
      execute_transfer st now submit = some (.error .NoRequests, st)) ∧
    (∀ (st : State) (now : Nat) (submit : Except String Nat)
        (t : TransferRequest) (rest : List TransferRequest) (b a : Nat),
      st.transfer_queue = t :: rest →
      heapMax st.clients.priority = some (b, a) →
      b < t.required_funds →
      execute_transfer st now submit = some (.error .NoClient, st)) ∧
    execute_transfer exampleStateHol 0 (.ok 42) =
      some (.error .NoClient, exampleStateHol) := by
  refine ⟨?_, ?_, rfl⟩
  · intro st now submit hq
    simp [execute_transfer, hq]
  · intro st now submit t rest b a hq hmax hb
    have hnot : st.clients.has_client_for t = false := by
      simp only [ClientPool.has_client_for, hmax, decide_eq_false_iff_not]
      omega
    simp [execute_transfer, hq, hnot]

/-- Witness for the failure cases of `execute_transfer`: the empty state has
no requests, and the head-of-line scenario has no eligible client. -/
theorem execute_transfer_errors_witness :
    execute_transfer State.initial 0 (.ok 1) =
      some (.error .NoRequests, State.initial) ∧
    execute_transfer exampleStateHol 0 (.ok 1) =
      some (.error .NoClient, exampleStateHol) :=
  ⟨execute_transfer_errors.1 State.initial 0 (.ok 1) rfl,
   execute_transfer_errors.2.1 exampleStateHol 0 (.ok 1) (.Funding 7 100)
     [.Funding 8 1] 10 1 rfl rfl (by decide)⟩

/-! ### Claim C7: the submission-failure path loses nothing -/

/-- Claim C7: when submission fails for the popped `(balance, client,
request)` triple, `execute_transfer` returns the client to the pool keyed by
its unchanged (not re-queried) balance, re-appends the original request to
the back of the queue, leaves everything else (in particular `inflight`)
unchanged, and fails with `RpcSubmitError` carrying the request, the sender's
address and the error message. -/
theorem execute_transfer_submit_failure :
    ∀ (st : State) (now : Nat) (msg : String) (t : TransferRequest)
      (rest : List TransferRequest) (b : Nat) (sender : Client) (p' : ClientPool),
      st.transfer_queue = t :: rest →
      st.clients.has_client_for t = true →
      st.clients.pop = (some (b, sender), p') →
      execute_transfer st now (.error msg) =
        some (.error (.RpcSubmitError t sender.address msg),
          { st with clients := p'.push b sender,
                    transfer_queue := rest ++ [t] }) := by
  intro st now msg t rest b sender p' hq hhas hpop
  simp [execute_transfer, hq, hhas, hpop]

/-- Witness: a failed submission in the greedy scenario re-queues the request
and restores the balance-10 client with its unchanged balance. -/
theorem execute_transfer_submit_failure_witness :
    execute_transfer exampleStateGreedy 3 (.error "boom") =
      some (.error (.RpcSubmitError (.Funding 99 5) 1 "boom"),
        { exampleStateGreedy with
            clients := ClientPool.mk [(1, ⟨1⟩), (3, ⟨3⟩), (2, ⟨2⟩)]
              [(7, 2), (3, 3), (10, 1)],
            transfer_queue := [.Funding 99 5] }) :=
  execute_transfer_submit_failure exampleStateGreedy 3 "boom" (.Funding 99 5)
    [] 10 ⟨1⟩ (ClientPool.mk [(3, ⟨3⟩), (2, ⟨2⟩)] [(7, 2), (3, 3)]) rfl rfl rfl


/-! ### handle_tx characterization lemmas -/

theorem handle_tx_of_inflight {cfg : Options} {st : State} {tx_hash : Nat}
    (tx_to : Option Nat) {receipt : TransactionReceipt} {bal : Nat → Nat}
    {tr : Transfer} (hl : alLookup st.inflight tx_hash = some tr) :
    handle_tx cfg st tx_hash tx_to receipt bal =
      handle_inflight_transfer st tx_hash receipt bal tr := by
  simp [handle_tx, hl]

theorem handle_tx_of_external {cfg : Options} {st : State} {tx_hash : Nat}
    {r : Nat} {receipt : TransactionReceipt} {bal : Nat → Nat}
    (hni : alLookup st.inflight tx_hash = none)
    (hbf : (alLookup st.clients_being_funded r).isSome) :
    handle_tx cfg st tx_hash (some r) receipt bal =
      handle_non_faucet_transfer cfg st receipt bal := by
  simp [handle_tx, hni, hbf]

theorem handle_tx_irrelevant {cfg : Options} {st : State} {tx_hash : Nat}
    {tx_to : Option Nat} {receipt : TransactionReceipt} {bal : Nat → Nat}
    (hni : alLookup st.inflight tx_hash = none)
    (hto : ∀ t, tx_to = some t → alLookup st.clients_being_funded t = none) :
    handle_tx cfg st tx_hash tx_to receipt bal = st := by
  cases tx_to with
  | none => simp [handle_tx, hni]
  | some t => simp [handle_tx, hni, hto t rfl]

theorem handle_inflight_funding_success {st : State} {tx_hash : Nat}
    {receipt : TransactionReceipt} {bal : Nat → Nat}
    {s : Client} {r d ts : Nat} {c : Client}
    (h1 : receipt.status = some 1)
    (hbf : alLookup st.clients_being_funded r = some c) :
    handle_inflight_transfer st tx_hash receipt bal ⟨s, .Funding r d, ts⟩ =
      { st with
        clients := (st.clients.push (bal s.address) s).push (bal r) c,
        clients_being_funded := alRemove st.clients_being_funded r,
        inflight := alRemove st.inflight tx_hash } := by
  simp [handle_inflight_transfer, h1, hbf]

theorem handle_inflight_shape (st : State) (tx_hash : Nat)
    (receipt : TransactionReceipt) (bal : Nat → Nat) (tr : Transfer) :
    ∃ (extra : List (Nat × Nat)) (bf2 : List (Nat × Client)) (pool2 : ClientPool),
      handle_inflight_transfer st tx_hash receipt bal tr =
        { clients := pool2, inflight := alRemove st.inflight tx_hash,
          clients_being_funded := bf2,
          transfer_queue := if receipt.status = some 0
            then st.transfer_queue ++ [tr.request] else st.transfer_queue,
          monitoring_started := st.monitoring_started } ∧
      pool2.priority = st.clients.priority ++
        (bal tr.sender.address, tr.sender.address) :: extra ∧
      (receipt.status ≠ some 1 →
        pool2 = st.clients.push (bal tr.sender.address) tr.sender ∧
        bf2 = st.clients_being_funded) := by
  by_cases h1 : receipt.status = some 1
  · have h0 : ¬ receipt.status = some 0 := by rw [h1]; simp
    cases tr with
    | mk s req ts =>
      cases req with
      | Faucet a amt =>
        refine ⟨[], st.clients_being_funded,
          st.clients.push (bal s.address) s, ?_, ?_, ?_⟩
        · simp [handle_inflight_transfer, h1, h0]
        · simp [ClientPool.push]
        · intro h; exact absurd h1 h
      | Funding r d =>
        cases hbf : alLookup st.clients_being_funded r with
        | none =>
          refine ⟨[], st.clients_being_funded,
            st.clients.push (bal s.address) s, ?_, ?_, ?_⟩
          · simp [handle_inflight_transfer, h1, h0, hbf]
          · simp [ClientPool.push]
          · intro h; exact absurd h1 h
        | some c =>
          refine ⟨[(bal r, c.address)], alRemove st.clients_being_funded r,
            (st.clients.push (bal s.address) s).push (bal r) c, ?_, ?_, ?_⟩
          · simp [handle_inflight_transfer, h1, h0, hbf]
          · simp [ClientPool.push]
          · intro h; exact absurd h1 h
  · cases tr with
    | mk s req ts =>
      refine ⟨[], st.clients_being_funded,
        st.clients.push (bal s.address) s, ?_, ?_, fun _ => ⟨rfl, rfl⟩⟩
      · by_cases h0 : receipt.status = some 0
        · simp [handle_inflight_transfer, h1, h0]
        · simp [handle_inflight_transfer, h1, h0]
      · simp [ClientPool.push]

theorem handle_non_faucet_promote {cfg : Options} {st : State}
    {receipt : TransactionReceipt} {bal : Nat → Nat} {r : Nat} {c : Client}
    (hr : receipt.toAddress = some r)
    (hbf : alLookup st.clients_being_funded r = some c)
    (hge : cfg.min_funding_balance ≤ bal r) :
    handle_non_faucet_transfer cfg st receipt bal =
      { st with
        transfer_queue := removeFirstTo st.transfer_queue r,
        clients_being_funded := alRemove st.clients_being_funded r,
        clients := st.clients.push (bal r) c } := by
  simp [handle_non_faucet_transfer, hr, hbf, hge]

theorem handle_non_faucet_below {cfg : Options} {st : State}
    {receipt : TransactionReceipt} {bal : Nat → Nat} {r : Nat} {c : Client}
    (hr : receipt.toAddress = some r)
    (hbf : alLookup st.clients_being_funded r = some c)
    (hlt : bal r < cfg.min_funding_balance) :
    handle_non_faucet_transfer cfg st receipt bal = st := by
  have : ¬ cfg.min_funding_balance ≤ bal r := by omega
  simp [handle_non_faucet_transfer, hr, hbf, this]


/-! ### Claim C6: inflight reconciliation regardless of status -/

/-- Claim C6: for every reconciled inflight transfer, regardless of receipt
status, the sender is returned to the pool keyed by a freshly queried balance
and the entry is removed from the inflight map; the original request is
re-appended to the back of the queue if and only if the receipt status is the
failure status `some 0`; and for a status that is neither success nor failure
no retry is triggered (queue unchanged) and no recipient re-check occurs
(being-funded map unchanged, the pool only receives the sender push). -/
theorem handle_tx_inflight_reconciliation :
    ∀ (cfg : Options) (st : State) (tx_hash : Nat) (tx_to : Option Nat)
      (receipt : TransactionReceipt) (bal : Nat → Nat) (tr : Transfer),
      (alKeys st.inflight).Nodup →
      alLookup st.inflight tx_hash = some tr →
      alLookup (handle_tx cfg st tx_hash tx_to receipt bal).inflight tx_hash
          = none ∧
      (bal tr.sender.address, tr.sender.address) ∈
        (handle_tx cfg st tx_hash tx_to receipt bal).clients.priority ∧
      (handle_tx cfg st tx_hash tx_to receipt bal).transfer_queue =
        (if receipt.status = some 0 then st.transfer_queue ++ [tr.request]
         else st.transfer_queue) ∧
      (receipt.status ≠ some 0 → receipt.status ≠ some 1 →
        (handle_tx cfg st tx_hash tx_to receipt bal).clients =
          st.clients.push (bal tr.sender.address) tr.sender ∧
        (handle_tx cfg st tx_hash tx_to receipt bal).clients_being_funded =
          st.clients_being_funded ∧
        (handle_tx cfg st tx_hash tx_to receipt bal).transfer_queue =
          st.transfer_queue) := by
  intro cfg st tx_hash tx_to receipt bal tr hnd hl
  rw [handle_tx_of_inflight tx_to hl]
  obtain ⟨extra, bf2, pool2, heq, hprio, hother⟩ :=
    handle_inflight_shape st tx_hash receipt bal tr
  rw [heq]
  refine ⟨alLookup_alRemove_self hnd, ?_, rfl, ?_⟩
  · rw [hprio]
    exact List.mem_append_right _ (List.mem_cons_self _ _)
  · intro h0 h1
    obtain ⟨hp, hb⟩ := hother h1
    exact ⟨hp, hb, by simp [h0]⟩

/-- Witness for inflight reconciliation: hash 7 of the inflight-funding
scenario, reconciled with the out-of-band receipt status `some 5`. -/
theorem handle_tx_inflight_reconciliation_witness :
    alLookup (handle_tx ⟨1, 10, 300⟩ exampleStateInflightFunding 7 none
        ⟨some 5, some 5⟩ exampleBalFunding).inflight 7 = none ∧
    (9, 3) ∈ (handle_tx ⟨1, 10, 300⟩ exampleStateInflightFunding 7 none
        ⟨some 5, some 5⟩ exampleBalFunding).clients.priority ∧
    (handle_tx ⟨1, 10, 300⟩ exampleStateInflightFunding 7 none
        ⟨some 5, some 5⟩ exampleBalFunding).transfer_queue =
      (if (some 5 : Option Nat) = some 0
       then exampleStateInflightFunding.transfer_queue ++ [.Funding 5 20]
       else exampleStateInflightFunding.transfer_queue) ∧
    ((some 5 : Option Nat) ≠ some 0 → (some 5 : Option Nat) ≠ some 1 →
      (handle_tx ⟨1, 10, 300⟩ exampleStateInflightFunding 7 none
          ⟨some 5, some 5⟩ exampleBalFunding).clients =
        exampleStateInflightFunding.clients.push 9 ⟨3⟩ ∧
      (handle_tx ⟨1, 10, 300⟩ exampleStateInflightFunding 7 none
          ⟨some 5, some 5⟩ exampleBalFunding).clients_being_funded =
        exampleStateInflightFunding.clients_being_funded ∧
      (handle_tx ⟨1, 10, 300⟩ exampleStateInflightFunding 7 none
          ⟨some 5, some 5⟩ exampleBalFunding).transfer_queue =
        exampleStateInflightFunding.transfer_queue) :=
  handle_tx_inflight_reconciliation ⟨1, 10, 300⟩ exampleStateInflightFunding 7
    none ⟨some 5, some 5⟩ exampleBalFunding ⟨⟨3⟩, .Funding 5 20, 0⟩
    (by decide) rfl

/-! ### Claim C2: funding reconciliation -/

/-- Counterexample to claim C2 as stated: the successful inflight `Funding`
transfer with hash 7 funds the being-funded account 5 (its recipient does
move into the pool keyed by the fresh balance 25, the being-funded map
empties, and a `Funding` request addressed to account 5 is still queued), yet
the queue is left unchanged — whereas the claim requires the still-queued
`Funding` request addressed to account 5 (first match by recipient) to be
removed, which would leave the queue empty. -/
theorem funding_reconciliation_counterexample :
    (handle_tx ⟨1, 10, 300⟩ exampleStateInflightFunding 7 none
        ⟨some 1, some 5⟩ exampleBalFunding).transfer_queue = [.Funding 5 20] ∧
    (handle_tx ⟨1, 10, 300⟩ exampleStateInflightFunding 7 none
        ⟨some 1, some 5⟩ exampleBalFunding).clients_being_funded = [] ∧
    alLookup (handle_tx ⟨1, 10, 300⟩ exampleStateInflightFunding 7 none
        ⟨some 1, some 5⟩ exampleBalFunding).clients.clients 5 = some ⟨5⟩ ∧
    (25, 5) ∈ (handle_tx ⟨1, 10, 300⟩ exampleStateInflightFunding 7 none
        ⟨some 1, some 5⟩ exampleBalFunding).clients.priority ∧
    removeFirstTo exampleStateInflightFunding.transfer_queue 5 = [] := by
  decide

/-- Claim C2 (amended): a successful inflight `Funding` transfer moves its
recipient from the being-funded map into the pool keyed by the freshly
queried balance, removes the inflight entry and returns the sender — but the
transfer queue is left unchanged (no queued request is removed on this path);
an external transfer to a being-funded account whose fresh balance meets the
threshold `2 × grant amount` removes the first queued request addressed to
that account and moves the account into the pool keyed by the fresh balance;
an external transfer leaving the balance below the threshold leaves the state
unchanged. -/
theorem funding_reconciliation :
    ∀ (cfg : Options) (st : State) (tx_hash : Nat)
      (receipt : TransactionReceipt) (bal : Nat → Nat),
      (∀ (s : Client) (r d ts : Nat) (c : Client) (tx_to : Option Nat),
        alLookup st.inflight tx_hash = some ⟨s, .Funding r d, ts⟩ →
        receipt.status = some 1 →
        alLookup st.clients_being_funded r = some c →
        handle_tx cfg st tx_hash tx_to receipt bal =
          { st with
            clients := (st.clients.push (bal s.address) s).push (bal r) c,
            clients_being_funded := alRemove st.clients_being_funded r,
            inflight := alRemove st.inflight tx_hash }) ∧
      (∀ (r : Nat) (c : Client),
        alLookup st.inflight tx_hash = none →
        receipt.toAddress = some r →
        alLookup st.clients_being_funded r = some c →
        cfg.min_funding_balance ≤ bal r →
        handle_tx cfg st tx_hash (some r) receipt bal =
          { st with
            transfer_queue := removeFirstTo st.transfer_queue r,
            clients_being_funded := alRemove st.clients_being_funded r,
            clients := st.clients.push (bal r) c }) ∧
      (∀ (r : Nat) (c : Client),
        alLookup st.inflight tx_hash = none →
        receipt.toAddress = some r →
        alLookup st.clients_being_funded r = some c →
        bal r < cfg.min_funding_balance →
        handle_tx cfg st tx_hash (some r) receipt bal = st) := by
  intro cfg st tx_hash receipt bal
  refine ⟨?_, ?_, ?_⟩
  · intro s r d ts c tx_to hl h1 hbf
    rw [handle_tx_of_inflight tx_to hl]
    exact handle_inflight_funding_success h1 hbf
  · intro r c hni hr hbf hge
    rw [handle_tx_of_external hni (by rw [hbf]; rfl)]
    exact handle_non_faucet_promote hr hbf hge
  · intro r c hni hr hbf hlt
    rw [handle_tx_of_external hni (by rw [hbf]; rfl)]
    exact handle_non_faucet_below hr hbf hlt

/-- Witness for the amended funding reconciliation, on its inflight-success
part: reconciling hash 7 of the inflight-funding scenario with a success
receipt promotes account 5 into the pool with balance 25 while leaving the
queued request in place. -/
theorem funding_reconciliation_witness :
    handle_tx ⟨1, 10, 300⟩ exampleStateInflightFunding 7 none
        ⟨some 1, some 5⟩ exampleBalFunding =
      { exampleStateInflightFunding with
        clients := ((exampleStateInflightFunding.clients.push 9 ⟨3⟩).push 25 ⟨5⟩),
        clients_being_funded := [],
        inflight := [] } :=
  (funding_reconciliation ⟨1, 10, 300⟩ exampleStateInflightFunding 7
      ⟨some 1, some 5⟩ exampleBalFunding).1 ⟨3⟩ 5 20 0 ⟨5⟩ none rfl rfl rfl


/-! ### Timeout-sweep lemmas -/

theorem foldl_timeoutStep_inflight (bal : Nat → Nat)
    (L : List (Nat × Transfer)) :
    ∀ st : State, (L.foldl (timeoutStep bal) st).inflight =
      L.foldl (fun m e => alRemove m e.1) st.inflight := by
  induction L with
  | nil => intro st; rfl
  | cons e t ih =>
    intro st
    rw [List.foldl_cons, List.foldl_cons, ih]
    rfl

theorem foldl_timeoutStep_queue (bal : Nat → Nat)
    (L : List (Nat × Transfer)) :
    ∀ st : State, (L.foldl (timeoutStep bal) st).transfer_queue =
      st.transfer_queue ++ L.map (fun e => e.2.request) := by
  induction L with
  | nil => intro st; simp
  | cons e t ih =>
    intro st
    rw [List.foldl_cons, ih]
    simp [timeoutStep]

theorem foldl_timeoutStep_clients (bal : Nat → Nat)
    (L : List (Nat × Transfer)) :
    ∀ st : State, (L.foldl (timeoutStep bal) st).clients =
      L.foldl (fun p e => p.push (bal e.2.sender.address) e.2.sender)
        st.clients := by
  induction L with
  | nil => intro st; rfl
  | cons e t ih =>
    intro st
    rw [List.foldl_cons, List.foldl_cons, ih]
    rfl

theorem foldl_remove_map_keys {V : Type} (L : List (Nat × V))
    (f : Nat × V → Nat) :
    ∀ m : List (Nat × V), L.foldl (fun m e => alRemove m (f e)) m =
      (L.map f).foldl alRemove m := by
  induction L with
  | nil => intro m; rfl
  | cons e t ih =>
    intro m
    rw [List.foldl_cons, List.map_cons, List.foldl_cons, ih]

theorem alKeys_nodup_foldl_alRemove {V : Type} (ks : List Nat) :
    ∀ m : List (Nat × V), (alKeys m).Nodup →
      (alKeys (ks.foldl alRemove m)).Nodup := by
  induction ks with
  | nil => exact fun m h => h
  | cons k t ih =>
    intro m h
    rw [List.foldl_cons]
    exact ih _ (alKeys_nodup_alRemove k h)

theorem alLookup_foldl_alRemove {V : Type} (ks : List Nat) :
    ∀ (m : List (Nat × V)) (k : Nat), (alKeys m).Nodup →
      alLookup (ks.foldl alRemove m) k =
        if k ∈ ks then none else alLookup m k := by
  induction ks with
  | nil => intro m k _; simp
  | cons k' t ih =>
    intro m k hnd
    rw [List.foldl_cons, ih _ k (alKeys_nodup_alRemove k' hnd)]
    by_cases hmem : k ∈ t
    · simp [hmem]
    · by_cases hk : k = k'
      · subst hk
        simp [hmem, alLookup_alRemove_self hnd]
      · simp [hmem, hk, alLookup_alRemove_ne _ hk]

theorem foldl_push_priority (bal : Nat → Nat) (L : List (Nat × Transfer)) :
    ∀ p : ClientPool,
      (L.foldl (fun p e => p.push (bal e.2.sender.address) e.2.sender)
        p).priority =
      p.priority ++ L.map (fun e =>
        (bal e.2.sender.address, e.2.sender.address)) := by
  induction L with
  | nil => intro p; simp
  | cons e t ih =>
    intro p
    rw [List.foldl_cons, ih]
    simp [ClientPool.push]

theorem alLookup_foldl_push_notin (bal : Nat → Nat)
    (L : List (Nat × Transfer)) :
    ∀ (p : ClientPool) (a : Nat),
      a ∉ L.map (fun e => e.2.sender.address) →
      alLookup (L.foldl (fun p e =>
        p.push (bal e.2.sender.address) e.2.sender) p).clients a =
      alLookup p.clients a := by
  induction L with
  | nil => intro p a _; rfl
  | cons e t ih =>
    intro p a ha
    rw [List.map_cons, List.mem_cons] at ha
    push_neg at ha
    rw [List.foldl_cons, ih _ a ha.2]
    exact alLookup_alInsert_ne _ _ ha.1

theorem alLookup_foldl_push (bal : Nat → Nat) (L : List (Nat × Transfer)) :
    ∀ p : ClientPool,
      (L.map (fun e => e.2.sender.address)).Nodup →
      ∀ e ∈ L, alLookup (L.foldl (fun p e =>
        p.push (bal e.2.sender.address) e.2.sender) p).clients
        e.2.sender.address = some e.2.sender := by
  induction L with
  | nil => intro p _ e he; simp at he
  | cons e₀ t ih =>
    intro p hnd e he
    rw [List.map_cons, List.nodup_cons] at hnd
    rcases List.mem_cons.mp he with rfl | he
    · rw [List.foldl_cons, alLookup_foldl_push_notin bal t _ _ hnd.1]
      exact alLookup_alInsert_self _ _ _
    · exact ih _ hnd.2 e he


/-! ### Claim C4: timeout recovery -/

/-- Claim C4: in one timeout-reconciliation sweep, every inflight entry whose
age exceeds the configured transaction timeout is removed from the inflight
map, its original request is appended to the back of the queue (the queue
becomes the old queue followed by exactly the timed-out requests), and its
sender returns to the pool keyed by a freshly queried balance; entries whose
age does not exceed the timeout are left untouched. -/
theorem process_timeouts_spec :
    ∀ (cfg : Options) (st : State) (now : Nat) (bal : Nat → Nat),
      (alKeys st.inflight).Nodup →
      ((timedOut cfg st now).map (fun e => e.2.sender.address)).Nodup →
      (∀ (tx_hash : Nat) (tr : Transfer),
        alLookup st.inflight tx_hash = some tr →
        cfg.transaction_timeout < now - tr.timestamp →
        alLookup (process_transaction_timeouts cfg st now bal).inflight
            tx_hash = none ∧
        (bal tr.sender.address, tr.sender.address) ∈
          (process_transaction_timeouts cfg st now bal).clients.priority ∧
        alLookup (process_transaction_timeouts cfg st now bal).clients.clients
          tr.sender.address = some tr.sender) ∧
      (∀ (tx_hash : Nat) (tr : Transfer),
        alLookup st.inflight tx_hash = some tr →
        ¬ cfg.transaction_timeout < now - tr.timestamp →
        alLookup (process_transaction_timeouts cfg st now bal).inflight
            tx_hash = some tr) ∧
      (process_transaction_timeouts cfg st now bal).transfer_queue =
        st.transfer_queue ++
          (timedOut cfg st now).map (fun e => e.2.request) := by
  intro cfg st now bal hnd hsnd
  have hinf : (process_transaction_timeouts cfg st now bal).inflight =
      ((timedOut cfg st now).map (fun e => e.1)).foldl alRemove st.inflight := by
    show ((timedOut cfg st now).foldl (timeoutStep bal) st).inflight = _
    rw [foldl_timeoutStep_inflight, foldl_remove_map_keys]
  have hcl : (process_transaction_timeouts cfg st now bal).clients =
      (timedOut cfg st now).foldl
        (fun p e => p.push (bal e.2.sender.address) e.2.sender) st.clients :=
    foldl_timeoutStep_clients bal _ st
  refine ⟨?_, ?_, foldl_timeoutStep_queue bal _ st⟩
  · intro tx_hash tr hl ht
    have hmem : (tx_hash, tr) ∈ timedOut cfg st now :=
      List.mem_filter.mpr ⟨alLookup_mem hl, by simp [ht]⟩
    refine ⟨?_, ?_, ?_⟩
    · rw [hinf, alLookup_foldl_alRemove _ _ _ hnd,
        if_pos (List.mem_map.mpr ⟨(tx_hash, tr), hmem, rfl⟩)]
    · rw [hcl, foldl_push_priority]
      exact List.mem_append_right _
        (List.mem_map.mpr ⟨(tx_hash, tr), hmem, rfl⟩)
    · rw [hcl]
      exact alLookup_foldl_push bal _ _ hsnd (tx_hash, tr) hmem
  · intro tx_hash tr hl ht
    rw [hinf, alLookup_foldl_alRemove _ _ _ hnd, if_neg, hl]
    intro hmem
    obtain ⟨e, heL, hek⟩ := List.mem_map.mp hmem
    have heI : (e.1, e.2) ∈ st.inflight := by
      simpa using List.mem_of_mem_filter heL
    have hle : alLookup st.inflight e.1 = some e.2 :=
      alLookup_of_mem_nodup hnd heI
    rw [hek, hl] at hle
    obtain rfl : tr = e.2 := by injection hle
    have := List.of_mem_filter heL
    simp at this
    exact ht this
  
/-- Witness for the timeout sweep: with timeout 50 at instant 120, the
transfer submitted at instant 0 (hash 1) is recovered while the one submitted
at instant 100 (hash 2) is untouched. -/
theorem process_timeouts_spec_witness :
    (alLookup (process_transaction_timeouts ⟨1, 1, 50⟩ exampleStateTimeouts
        120 (fun _ => 77)).inflight 1 = none ∧
      (77, 3) ∈ (process_transaction_timeouts ⟨1, 1, 50⟩ exampleStateTimeouts
        120 (fun _ => 77)).clients.priority ∧
      alLookup (process_transaction_timeouts ⟨1, 1, 50⟩ exampleStateTimeouts
        120 (fun _ => 77)).clients.clients 3 = some ⟨3⟩) ∧
    alLookup (process_transaction_timeouts ⟨1, 1, 50⟩ exampleStateTimeouts
        120 (fun _ => 77)).inflight 2 = some ⟨⟨4⟩, .Funding 9 4, 100⟩ :=
  ⟨(process_timeouts_spec ⟨1, 1, 50⟩ exampleStateTimeouts 120 (fun _ => 77)
      (by decide) (by decide)).1 1 ⟨⟨3⟩, .Faucet 9 4, 0⟩ rfl (by decide),
   (process_timeouts_spec ⟨1, 1, 50⟩ exampleStateTimeouts 120 (fun _ => 77)
      (by decide) (by decide)).2.1 2 ⟨⟨4⟩, .Funding 9 4, 100⟩ rfl (by decide)⟩


/-! ### Generic fold lemmas for the startup partition -/

theorem alLookup_foldl_alInsert_notin {α V : Type} (key : α → Nat) (val : α → V)
    (cs : List α) :
    ∀ (m : List (Nat × V)) (a : Nat), a ∉ cs.map key →
      alLookup (cs.foldl (fun m x => alInsert m (key x) (val x)) m) a =
        alLookup m a := by
  induction cs with
  | nil => intro m a _; rfl
  | cons x t ih =>
    intro m a ha
    rw [List.map_cons, List.mem_cons] at ha
    push_neg at ha
    rw [List.foldl_cons, ih _ a ha.2]
    exact alLookup_alInsert_ne _ _ ha.1

theorem alLookup_foldl_alInsert_mem {α V : Type} (key : α → Nat) (val : α → V)
    (cs : List α) :
    ∀ m : List (Nat × V), (cs.map key).Nodup →
      ∀ x ∈ cs, alLookup (cs.foldl (fun m x => alInsert m (key x) (val x)) m)
        (key x) = some (val x) := by
  induction cs with
  | nil => intro m _ x hx; simp at hx
  | cons x₀ t ih =>
    intro m hnd x hx
    rw [List.map_cons, List.nodup_cons] at hnd
    rcases List.mem_cons.mp hx with rfl | hx
    · rw [List.foldl_cons, alLookup_foldl_alInsert_notin key val t _ _ hnd.1]
      exact alLookup_alInsert_self _ _ _
    · exact ih _ hnd.2 x hx

theorem length_foldl_alInsert {α V : Type} (key : α → Nat) (val : α → V)
    (cs : List α) :
    ∀ m : List (Nat × V), (cs.map key).Nodup →
      (∀ x ∈ cs, alLookup m (key x) = none) →
      (cs.foldl (fun m x => alInsert m (key x) (val x)) m).length =
        m.length + cs.length := by
  induction cs with
  | nil => intro m _ _; simp
  | cons x₀ t ih =>
    intro m hnd hfresh
    rw [List.map_cons, List.nodup_cons] at hnd
    rw [List.foldl_cons,
      alInsert_of_lookup_none _ (hfresh x₀ (List.mem_cons_self x₀ t))]
    rw [ih _ hnd.2 ?_]
    · simp [Nat.add_assoc, Nat.add_comm 1]
    · intro x hx
      have hne : key x ≠ key x₀ := by
        intro h
        exact hnd.1 (h ▸ List.mem_map.mpr ⟨x, hx, rfl⟩)
      have hne2 : ¬ (key x₀ = key x) := fun hh => hne hh.symm
      simp only [alLookup, if_neg hne2]
      exact hfresh x (List.mem_cons_of_mem _ hx)

theorem foldl_poolPush_priority {α : Type} (b : α → Nat) (c : α → Client)
    (cs : List α) :
    ∀ p : ClientPool,
      (cs.foldl (fun p x => p.push (b x) (c x)) p).priority =
      p.priority ++ cs.map (fun x => (b x, (c x).address)) := by
  induction cs with
  | nil => intro p; simp
  | cons x t ih =>
    intro p
    rw [List.foldl_cons, ih]
    simp [ClientPool.push]

theorem alLookup_foldl_poolPush_notin {α : Type} (b : α → Nat) (c : α → Client)
    (cs : List α) :
    ∀ (p : ClientPool) (a : Nat), a ∉ cs.map (fun x => (c x).address) →
      alLookup (cs.foldl (fun p x => p.push (b x) (c x)) p).clients a =
        alLookup p.clients a := by
  induction cs with
  | nil => intro p a _; rfl
  | cons x t ih =>
    intro p a ha
    rw [List.map_cons, List.mem_cons] at ha
    push_neg at ha
    rw [List.foldl_cons, ih _ a ha.2]
    exact alLookup_alInsert_ne _ _ ha.1

theorem alLookup_foldl_poolPush_mem {α : Type} (b : α → Nat) (c : α → Client)
    (cs : List α) :
    ∀ p : ClientPool, (cs.map (fun x => (c x).address)).Nodup →
      ∀ x ∈ cs, alLookup (cs.foldl (fun p x => p.push (b x) (c x)) p).clients
        (c x).address = some (c x) := by
  induction cs with
  | nil => intro p _ x hx; simp at hx
  | cons x₀ t ih =>
    intro p hnd x hx
    rw [List.map_cons, List.nodup_cons] at hnd
    rcases List.mem_cons.mp hx with rfl | hx
    · rw [List.foldl_cons, alLookup_foldl_poolPush_notin b c t _ _ hnd.1]
      exact alLookup_alInsert_self _ _ _
    · exact ih _ hnd.2 x hx

theorem count_map_nodup {α β : Type} [DecidableEq α] [DecidableEq β]
    (f : α → β) :
    ∀ (l : List α), l.Nodup → ∀ x ∈ l, (∀ y ∈ l, f y = f x → y = x) →
      (l.map f).count (f x) = 1 := by
  intro l
  induction l with
  | nil => intro _ x hx; simp at hx
  | cons a t ih =>
    intro hnd x hx hinj
    rw [List.nodup_cons] at hnd
    rcases List.mem_cons.mp hx with rfl | hx
    · rw [List.map_cons, List.count_cons_self]
      have : (t.map f).count (f x) = 0 := by
        rw [List.count_eq_zero]
        intro hmem
        obtain ⟨y, hy, hfy⟩ := List.mem_map.mp hmem
        exact hnd.1 ((hinj y (List.mem_cons_of_mem _ hy) hfy) ▸ hy)
      omega
    · have hne : f x ≠ f a := by
        intro h
        have := hinj a (List.mem_cons_self a t) h.symm
        exact hnd.1 (this ▸ hx)
      rw [List.map_cons, List.count_cons_of_ne hne]
      exact ih hnd.2 x hx fun y hy hfy =>
        hinj y (List.mem_cons_of_mem _ hy) hfy


/-! ### Startup-partition lemmas -/

theorem foldl_createStep_queue (desired : Nat) (cs : List (Nat × Client)) :
    ∀ st : State, (cs.foldl (createStep desired) st).transfer_queue =
      st.transfer_queue ++
        (cs.filter (fun bc => decide (bc.1 < desired))).map
          (fun bc => .Funding bc.2.address desired) := by
  induction cs with
  | nil => intro st; simp
  | cons bc t ih =>
    intro st
    rw [List.foldl_cons, ih]
    by_cases hb : bc.1 < desired
    · simp [createStep, hb]
    · simp [createStep, hb]

theorem foldl_createStep_bf (desired : Nat) (cs : List (Nat × Client)) :
    ∀ st : State, (cs.foldl (createStep desired) st).clients_being_funded =
      (cs.filter (fun bc => decide (bc.1 < desired))).foldl
        (fun m bc => alInsert m bc.2.address bc.2)
        st.clients_being_funded := by
  induction cs with
  | nil => intro st; rfl
  | cons bc t ih =>
    intro st
    rw [List.foldl_cons, ih]
    by_cases hb : bc.1 < desired
    · simp [createStep, hb]
    · simp [createStep, hb]

theorem foldl_createStep_clients (desired : Nat) (cs : List (Nat × Client)) :
    ∀ st : State, (cs.foldl (createStep desired) st).clients =
      (cs.filter (fun bc => decide (desired ≤ bc.1))).foldl
        (fun p bc => p.push bc.1 bc.2) st.clients := by
  induction cs with
  | nil => intro st; rfl
  | cons bc t ih =>
    intro st
    rw [List.foldl_cons, ih]
    by_cases hb : bc.1 < desired
    · have : ¬ desired ≤ bc.1 := by omega
      simp [createStep, hb, this]
    · have : desired ≤ bc.1 := by omega
      simp [createStep, hb, this]

theorem createClients_balances (cfg : Options) (addrOf balOf : Nat → Nat) :
    (createClients cfg addrOf balOf).map (·.1) =
      (List.range cfg.num_clients).map balOf := by
  unfold createClients
  rw [List.map_map]
  rfl

theorem create_some_eq {cfg : Options} {addrOf balOf : Nat → Nat} {st : State}
    (hc : create cfg addrOf balOf = some st) :
    cfg.num_clients ≠ 0 ∧
    desiredBalance cfg ((List.range cfg.num_clients).map balOf) < 2 ^ 256 ∧
    st = (createClients cfg addrOf balOf).foldl
      (createStep
        (desiredBalance cfg ((List.range cfg.num_clients).map balOf)))
      State.initial := by
  unfold create at hc
  rw [createClients_balances] at hc
  split at hc
  · exact absurd hc (by simp)
  · rename_i h0
    split at hc
    · exact absurd hc (by simp)
    · rename_i hguard
      refine ⟨h0, by omega, ?_⟩
      injection hc with h
      exact h.symm


/-! ### Claim C3: the startup partition -/

/-- Claim C3: after a successful `Faucet::create` with pairwise-distinct
derived addresses, with `desired` the computed desired balance
`max(total / num_clients * 8 / 10, 2 * grant)`: every account whose balance
is strictly below `desired` is in the being-funded map (and not in the pool)
with exactly one `Funding{to := it, averageWalletBalance := desired}` request
queued for it; every other account is in the pool keyed by its observed
balance (not being funded, with no request addressed to it); the queue
consists exactly of the funding requests of the below-threshold accounts in
index order, and the being-funded map has exactly one entry per
below-threshold account. -/
theorem create_partition :
    ∀ (cfg : Options) (addrOf balOf : Nat → Nat) (st : State) (desired : Nat),
      (∀ i j, i < cfg.num_clients → j < cfg.num_clients →
        addrOf i = addrOf j → i = j) →
      create cfg addrOf balOf = some st →
      desired = desiredBalance cfg ((List.range cfg.num_clients).map balOf) →
      (∀ i, i < cfg.num_clients → balOf i < desired →
        alLookup st.clients_being_funded (addrOf i) = some ⟨addrOf i⟩ ∧
        alLookup st.clients.clients (addrOf i) = none ∧
        st.transfer_queue.count (.Funding (addrOf i) desired) = 1) ∧
      (∀ i, i < cfg.num_clients → desired ≤ balOf i →
        alLookup st.clients.clients (addrOf i) = some ⟨addrOf i⟩ ∧
        (balOf i, addrOf i) ∈ st.clients.priority ∧
        alLookup st.clients_being_funded (addrOf i) = none ∧
        ∀ r ∈ st.transfer_queue, r.toAddress ≠ addrOf i) ∧
      st.transfer_queue = ((List.range cfg.num_clients).filter
          (fun i => decide (balOf i < desired))).map
        (fun i => .Funding (addrOf i) desired) ∧
      st.clients_being_funded.length = ((List.range cfg.num_clients).filter
          (fun i => decide (balOf i < desired))).length := by
  intro cfg addrOf balOf st desired haddr hc hdes
  obtain ⟨h0, hD, hst⟩ := create_some_eq hc
  subst hdes
  set n := cfg.num_clients with hn
  set D := desiredBalance cfg ((List.range n).map balOf) with hDdef
  set f : Nat → Nat × Client := fun i => (balOf i, Client.mk (addrOf i))
    with hf
  set belowIdx := (List.range n).filter (fun i => decide (balOf i < D))
    with hbelow
  set aboveIdx := (List.range n).filter (fun i => decide (D ≤ balOf i))
    with habove
  have hmem_below : ∀ i, i ∈ belowIdx ↔ i < n ∧ balOf i < D := by
    intro i
    rw [hbelow, List.mem_filter, List.mem_range]
    simp
  have hmem_above : ∀ i, i ∈ aboveIdx ↔ i < n ∧ D ≤ balOf i := by
    intro i
    rw [habove, List.mem_filter, List.mem_range]
    simp
  have hqueue : st.transfer_queue =
      belowIdx.map (fun i => .Funding (addrOf i) D) := by
    rw [hst, foldl_createStep_queue]
    show [] ++ _ = _
    rw [List.nil_append]
    unfold createClients
    rw [List.filter_map, List.map_map]
    rfl
  have hbf : st.clients_being_funded =
      (belowIdx.map f).foldl (fun m bc => alInsert m bc.2.address bc.2) [] := by
    rw [hst, foldl_createStep_bf]
    show _ = (belowIdx.map f).foldl _ []
    unfold createClients
    rw [List.filter_map]
    rfl
  have hcl : st.clients =
      (aboveIdx.map f).foldl (fun p bc => p.push bc.1 bc.2) ⟨[], []⟩ := by
    rw [hst, foldl_createStep_clients]
    show _ = (aboveIdx.map f).foldl _ ⟨[], []⟩
    unfold createClients
    rw [List.filter_map]
    rfl
  have hkeys_below : ((belowIdx.map f).map (fun bc => bc.2.address)).Nodup := by
    rw [List.map_map]
    refine List.Nodup.map_on ?_ (List.Nodup.filter _ (List.nodup_range n))
    intro x hx y hy hxy
    rw [hmem_below] at hx hy
    exact haddr x y hx.1 hy.1 hxy
  have hkeys_above : ((aboveIdx.map f).map (fun bc => bc.2.address)).Nodup := by
    rw [List.map_map]
    refine List.Nodup.map_on ?_ (List.Nodup.filter _ (List.nodup_range n))
    intro x hx y hy hxy
    rw [hmem_above] at hx hy
    exact haddr x y hx.1 hy.1 hxy
  have hnot_above : ∀ i, i < n → balOf i < D →
      addrOf i ∉ (aboveIdx.map f).map (fun bc => bc.2.address) := by
    intro i hi hbi hmem
    rw [List.map_map] at hmem
    obtain ⟨j, hj, hja⟩ := List.mem_map.mp hmem
    rw [hmem_above] at hj
    obtain rfl := haddr j i hj.1 hi hja
    omega
  have hnot_below : ∀ i, i < n → D ≤ balOf i →
      addrOf i ∉ (belowIdx.map f).map (fun bc => bc.2.address) := by
    intro i hi hbi hmem
    rw [List.map_map] at hmem
    obtain ⟨j, hj, hja⟩ := List.mem_map.mp hmem
    rw [hmem_below] at hj
    obtain rfl := haddr j i hj.1 hi hja
    omega
  refine ⟨?_, ?_, hqueue, ?_⟩
  · intro i hi hbi
    refine ⟨?_, ?_, ?_⟩
    · rw [hbf]
      exact alLookup_foldl_alInsert_mem _ _ (belowIdx.map f) [] hkeys_below
        (f i) (List.mem_map.mpr ⟨i, (hmem_below i).mpr ⟨hi, hbi⟩, rfl⟩)
    · rw [hcl,
        alLookup_foldl_poolPush_notin _ _ _ _ _ (hnot_above i hi hbi)]
      rfl
    · rw [hqueue]
      refine count_map_nodup (fun i => TransferRequest.Funding (addrOf i) D)
        belowIdx (List.Nodup.filter _ (List.nodup_range n)) i
        ((hmem_below i).mpr ⟨hi, hbi⟩) ?_
      intro y hy hfy
      rw [hmem_below] at hy
      have : addrOf y = addrOf i := by
        injection hfy
      exact haddr y i hy.1 hi this
  · intro i hi hbi
    refine ⟨?_, ?_, ?_, ?_⟩
    · rw [hcl]
      exact alLookup_foldl_poolPush_mem _ _ (aboveIdx.map f) ⟨[], []⟩
        hkeys_above (f i) (List.mem_map.mpr ⟨i, (hmem_above i).mpr ⟨hi, hbi⟩, rfl⟩)
    · rw [hcl, foldl_poolPush_priority]
      exact List.mem_append_right _ (List.mem_map.mpr
        ⟨f i, List.mem_map.mpr ⟨i, (hmem_above i).mpr ⟨hi, hbi⟩, rfl⟩, rfl⟩)
    · rw [hbf,
        alLookup_foldl_alInsert_notin _ _ _ _ _ (hnot_below i hi hbi)]
      rfl
    · intro r hr hri
      rw [hqueue] at hr
      obtain ⟨j, hj, rfl⟩ := List.mem_map.mp hr
      rw [hmem_below] at hj
      have : addrOf j = addrOf i := hri
      obtain rfl := haddr j i hj.1 hi this
      omega
  · rw [hbf, length_foldl_alInsert _ _ _ [] hkeys_below (fun x _ => rfl)]
    simp

/-- Witness for the startup partition: two accounts with balances 1 and 100
under grant amount 1; the desired balance is `max(101 / 2 * 8 / 10, 2) = 40`,
account 0 (address 10, balance 1) is being funded with one queued request,
account 1 (address 11, balance 100) is pooled. -/
theorem create_partition_witness :
    (alLookup
        (((List.range 2).map (fun i => ((fun j => [1, 100].getD j 0) i,
          Client.mk ((fun j => j + 10) i)))).foldl (createStep 40)
          State.initial).clients_being_funded 10 = some ⟨10⟩ ∧
      alLookup
        (((List.range 2).map (fun i => ((fun j => [1, 100].getD j 0) i,
          Client.mk ((fun j => j + 10) i)))).foldl (createStep 40)
          State.initial).clients.clients 10 = none ∧
      (((List.range 2).map (fun i => ((fun j => [1, 100].getD j 0) i,
        Client.mk ((fun j => j + 10) i)))).foldl (createStep 40)
        State.initial).transfer_queue.count (.Funding 10 40) = 1) ∧
    (((List.range 2).map (fun i => ((fun j => [1, 100].getD j 0) i,
      Client.mk ((fun j => j + 10) i)))).foldl (createStep 40)
      State.initial).clients_being_funded.length = 1 := by
  have h := create_partition ⟨2, 1, 0⟩ (fun j => j + 10)
    (fun j => [1, 100].getD j 0)
    (((List.range 2).map (fun i => ((fun j => [1, 100].getD j 0) i,
      Client.mk ((fun j => j + 10) i)))).foldl (createStep 40) State.initial)
    40 (fun i j _ _ hij => Nat.add_right_cancel hij) rfl rfl
  exact ⟨h.1 0 (by decide) (by decide), by rw [h.2.2.2]; decide⟩


/-! ### Claim C10: totality and overflow safety of the desired balance -/

/-- Claim C10: `Faucet::create` divides the summed balance by `num_clients`
with no zero guard, so it panics (models as `none`) when `num_clients = 0`;
under the precondition `num_clients ≥ 1`, with every queried balance a `U256`
value and the minimum funding balance `2 × grant` a `U256` value, the
computed `max(total / num_clients * 8 / 10, 2 × grant)` always fits in 256
bits, so the `expect("average balance overflows U256")` panic branch of the
conversion back to `U256` is unreachable and `create` succeeds. -/
theorem create_desired_balance_safe :
    ∀ (cfg : Options) (addrOf balOf : Nat → Nat),
      (cfg.num_clients = 0 → create cfg addrOf balOf = none) ∧
      (1 ≤ cfg.num_clients →
        (∀ i, i < cfg.num_clients → balOf i < 2 ^ 256) →
        cfg.min_funding_balance < 2 ^ 256 →
        desiredBalance cfg ((List.range cfg.num_clients).map balOf) <
            2 ^ 256 ∧
        (create cfg addrOf balOf).isSome) := by
  intro cfg addrOf balOf
  constructor
  · intro h
    simp [create, h]
  · intro h1 hb hm
    have h8 : ∀ a : Nat, a * 8 / 10 ≤ a := by
      intro a
      calc a * 8 / 10 ≤ a * 10 / 10 := Nat.div_le_div_right (by omega)
      _ = a := Nat.mul_div_cancel a (by omega)
    have hsum : ((List.range cfg.num_clients).map balOf).sum ≤
        cfg.num_clients * (2 ^ 256 - 1) := by
      have := List.sum_le_card_nsmul ((List.range cfg.num_clients).map balOf)
        (2 ^ 256 - 1) ?_
      · simpa using this
      · intro x hx
        obtain ⟨i, hi, rfl⟩ := List.mem_map.mp hx
        have := hb i (List.mem_range.mp hi)
        omega
    have hdiv : ((List.range cfg.num_clients).map balOf).sum /
        cfg.num_clients ≤ 2 ^ 256 - 1 := by
      calc ((List.range cfg.num_clients).map balOf).sum / cfg.num_clients ≤
          cfg.num_clients * (2 ^ 256 - 1) / cfg.num_clients :=
            Nat.div_le_div_right hsum
      _ = 2 ^ 256 - 1 := Nat.mul_div_cancel_left _ (by omega)
    have hbound : desiredBalance cfg
        ((List.range cfg.num_clients).map balOf) < 2 ^ 256 := by
      unfold desiredBalance
      have := h8 (((List.range cfg.num_clients).map balOf).sum /
        cfg.num_clients)
      have hpos : (0:Nat) < 2 ^ 256 := Nat.pos_pow_of_pos _ (by omega)
      rw [Nat.max_lt]
      omega
    refine ⟨hbound, ?_⟩
    unfold create
    rw [createClients_balances, if_neg (by omega), if_neg (by omega)]
    rfl

/-- Witness for the desired-balance safety: one client with balance 5 under
grant 1 yields desired balance `max(5 * 8 / 10, 2) = 4 < 2 ^ 256` and a
successful construction. -/
theorem create_desired_balance_safe_witness :
    desiredBalance ⟨1, 1, 0⟩ ((List.range 1).map (fun _ => 5)) < 2 ^ 256 ∧
    (create ⟨1, 1, 0⟩ (fun i => i) (fun _ => 5)).isSome :=
  (create_desired_balance_safe ⟨1, 1, 0⟩ (fun i => i) (fun _ => 5)).2
    (by decide) (fun i _ => by decide) (by decide)


/-! ### Custody accounting lemmas -/

theorem inflightCount_pos {st : State} {txh : Nat} {tr : Transfer}
    (hl : alLookup st.inflight txh = some tr) :
    0 < st.inflightCount tr.sender.address := by
  unfold State.inflightCount
  rw [List.countP_pos]
  exact ⟨(txh, tr), alLookup_mem hl, by simp⟩

theorem inflight_sender_free {st : State}
    (hcount : ∀ a, ownerCount st a ≤ 1) {txh : Nat} {tr : Transfer}
    (hl : alLookup st.inflight txh = some tr) :
    alLookup st.clients.clients tr.sender.address = none ∧
    alLookup st.clients_being_funded tr.sender.address = none ∧
    st.inflightCount tr.sender.address = 1 := by
  have hpos := inflightCount_pos hl
  have hle := hcount tr.sender.address
  unfold ownerCount State.inPool State.inBeingFunded at hle
  cases hc : alLookup st.clients.clients tr.sender.address with
  | some c => rw [hc] at hle; simp at hle; omega
  | none =>
    cases hb : alLookup st.clients_being_funded tr.sender.address with
    | some c => rw [hb] at hle; simp at hle; omega
    | none =>
      rw [hc, hb] at hle
      simp at hle
      exact ⟨rfl, rfl, by omega⟩

theorem being_funded_free {st : State}
    (hcount : ∀ a, ownerCount st a ≤ 1) {r : Nat} {c : Client}
    (hbf : alLookup st.clients_being_funded r = some c) :
    alLookup st.clients.clients r = none ∧ st.inflightCount r = 0 := by
  have hle := hcount r
  unfold ownerCount State.inPool State.inBeingFunded at hle
  rw [hbf] at hle
  cases hc : alLookup st.clients.clients r with
  | some c' => rw [hc] at hle; simp at hle; exact absurd hle (by omega)
  | none =>
    rw [hc] at hle
    simp at hle
    exact ⟨rfl, by omega⟩

theorem inflightCount_alRemove {st : State} {txh : Nat} {tr : Transfer}
    (hl : alLookup st.inflight txh = some tr) (a : Nat) :
    (alRemove st.inflight txh).countP
        (fun e => decide (e.2.sender.address = a)) +
      (if tr.sender.address = a then 1 else 0) = st.inflightCount a := by
  unfold State.inflightCount
  have := countP_alRemove hl (fun e => decide (e.2.sender.address = a))
  simpa using this

/-- Returning an inflight sender to the pool (with any balance and any
queue) preserves the inductive invariant. -/
theorem stateWF_return_sender (st : State) (txh : Nat) (tr : Transfer)
    (ba : Nat) (q' : List TransferRequest) (hWF : StateWF st)
    (hl : alLookup st.inflight txh = some tr) :
    StateWF { st with
      clients := st.clients.push ba tr.sender,
      transfer_queue := q',
      inflight := alRemove st.inflight txh } := by
  obtain ⟨hpool, hinfl, hbf, hbfaddr, hcount⟩ := hWF
  obtain ⟨hfp, hfb, hfc⟩ := inflight_sender_free hcount hl
  refine ⟨poolWF_push hpool ba tr.sender hfp, alKeys_nodup_alRemove _ hinfl,
    hbf, hbfaddr, ?_⟩
  intro a
  have hrem := inflightCount_alRemove hl a
  unfold State.inflightCount at hrem
  unfold ownerCount State.inPool State.inBeingFunded State.inflightCount
  simp only [ClientPool.push]
  by_cases ha : a = tr.sender.address
  · subst ha
    rw [if_pos rfl] at hrem
    unfold State.inflightCount at hfc
    simp only [alLookup_alInsert_self, hfb, Option.isSome_some,
      Option.isSome_none, Bool.false_eq_true, if_true, if_false]
    omega
  · have h1 : alLookup (alInsert st.clients.clients tr.sender.address
        tr.sender) a = alLookup st.clients.clients a :=
      alLookup_alInsert_ne _ _ ha
    rw [if_neg (fun hh => ha hh.symm)] at hrem
    have hle := hcount a
    unfold ownerCount State.inPool State.inBeingFunded State.inflightCount
      at hle
    simp only [h1]
    omega

/-- Returning an inflight sender to the pool and promoting a being-funded
client into the pool (with any balances and any queue) preserves the
inductive invariant. -/
theorem stateWF_return_sender_promote (st : State) (txh : Nat) (tr : Transfer)
    (ba br : Nat) (r : Nat) (c : Client) (q' : List TransferRequest)
    (hWF : StateWF st) (hl : alLookup st.inflight txh = some tr)
    (hbf : alLookup st.clients_being_funded r = some c) :
    StateWF { st with
      clients := (st.clients.push ba tr.sender).push br c,
      clients_being_funded := alRemove st.clients_being_funded r,
      transfer_queue := q',
      inflight := alRemove st.inflight txh } := by
  obtain ⟨hpool, hinfl, hbfnd, hbfaddr, hcount⟩ := hWF
  obtain ⟨hfp, hfb, hfc⟩ := inflight_sender_free hcount hl
  obtain ⟨hrp, hrc⟩ := being_funded_free hcount hbf
  have hca : c.address = r := hbfaddr (r, c) (alLookup_mem hbf)
  have hrA : r ≠ tr.sender.address := by
    intro h
    rw [h, hfb] at hbf
    exact Option.noConfusion hbf
  have hpool1 : PoolWF (st.clients.push ba tr.sender) :=
    poolWF_push hpool ba tr.sender hfp
  have hpool2 : PoolWF ((st.clients.push ba tr.sender).push br c) := by
    refine poolWF_push hpool1 br c ?_
    show alLookup (alInsert st.clients.clients tr.sender.address tr.sender)
        c.address = none
    rw [hca, alLookup_alInsert_ne _ _ hrA]
    exact hrp
  refine ⟨hpool2, alKeys_nodup_alRemove _ hinfl,
    alKeys_nodup_alRemove _ hbfnd,
    (fun kv hkv => hbfaddr kv ((alRemove_sublist _ _).mem hkv)), ?_⟩
  intro a
  have hrem := inflightCount_alRemove hl a
  unfold State.inflightCount at hrem
  unfold ownerCount State.inPool State.inBeingFunded State.inflightCount
  simp only [ClientPool.push, hca]
  by_cases har : a = r
  · subst har
    rw [if_neg (fun hh => hrA hh.symm)] at hrem
    unfold State.inflightCount at hrc
    simp only [alLookup_alInsert_self, alLookup_alRemove_self hbfnd,
      Option.isSome_some, Option.isSome_none, Bool.false_eq_true, if_true,
      if_false]
    omega
  · have h2 : alLookup (alInsert (alInsert st.clients.clients
        tr.sender.address tr.sender) r c) a =
        alLookup (alInsert st.clients.clients tr.sender.address tr.sender)
          a := alLookup_alInsert_ne _ _ har
    have h3 : alLookup (alRemove st.clients_being_funded r) a =
        alLookup st.clients_being_funded a := alLookup_alRemove_ne _ har
    by_cases ha : a = tr.sender.address
    · subst ha
      rw [if_pos rfl] at hrem
      unfold State.inflightCount at hfc
      simp only [h2, h3, alLookup_alInsert_self, hfb, Option.isSome_some,
        Option.isSome_none, Bool.false_eq_true, if_true, if_false]
      omega
    · have h4 : alLookup (alInsert st.clients.clients tr.sender.address
          tr.sender) a = alLookup st.clients.clients a :=
        alLookup_alInsert_ne _ _ ha
      rw [if_neg (fun hh => ha hh.symm)] at hrem
      have hle := hcount a
      unfold ownerCount State.inPool State.inBeingFunded State.inflightCount
        at hle
      simp only [h2, h3, h4]
      omega


/-- Promoting a being-funded client into the pool (with any balance and any
queue) preserves the inductive invariant. -/
theorem stateWF_promote (st : State) (r : Nat) (c : Client) (br : Nat)
    (q' : List TransferRequest) (hWF : StateWF st)
    (hbf : alLookup st.clients_being_funded r = some c) :
    StateWF { st with
      transfer_queue := q',
      clients_being_funded := alRemove st.clients_being_funded r,
      clients := st.clients.push br c } := by
  obtain ⟨hpool, hinfl, hbfnd, hbfaddr, hcount⟩ := hWF
  obtain ⟨hrp, hrc⟩ := being_funded_free hcount hbf
  have hca : c.address = r := hbfaddr (r, c) (alLookup_mem hbf)
  refine ⟨poolWF_push hpool br c (by rw [hca]; exact hrp),
    hinfl, alKeys_nodup_alRemove _ hbfnd,
    (fun kv hkv => hbfaddr kv ((alRemove_sublist _ _).mem hkv)), ?_⟩
  intro a
  unfold State.inflightCount at hrc
  unfold ownerCount State.inPool State.inBeingFunded State.inflightCount
  simp only [ClientPool.push, hca]
  by_cases har : a = r
  · subst har
    simp only [alLookup_alInsert_self, alLookup_alRemove_self hbfnd,
      Option.isSome_some, Option.isSome_none, Bool.false_eq_true, if_true,
      if_false]
    omega
  · have h2 : alLookup (alInsert st.clients.clients r c) a =
        alLookup st.clients.clients a := alLookup_alInsert_ne _ _ har
    have h3 : alLookup (alRemove st.clients_being_funded r) a =
        alLookup st.clients_being_funded a := alLookup_alRemove_ne _ har
    have hle := hcount a
    unfold ownerCount State.inPool State.inBeingFunded State.inflightCount
      at hle
    simp only [h2, h3]
    omega

/-- `handle_non_faucet_transfer` preserves the inductive invariant. -/
theorem stateWF_non_faucet {cfg : Options} {st : State}
    {receipt : TransactionReceipt} {bal : Nat → Nat} (hWF : StateWF st) :
    StateWF (handle_non_faucet_transfer cfg st receipt bal) := by
  cases hto : receipt.toAddress with
  | none => simp only [handle_non_faucet_transfer, hto]; exact hWF
  | some r =>
    cases hbf : alLookup st.clients_being_funded r with
    | none => simp only [handle_non_faucet_transfer, hto, hbf]; exact hWF
    | some c =>
      by_cases hge : cfg.min_funding_balance ≤ bal r
      · rw [handle_non_faucet_promote hto hbf hge]
        exact stateWF_promote st r c (bal r) _ hWF hbf
      · rw [handle_non_faucet_below hto hbf (by omega)]
        exact hWF

/-- `handle_inflight_transfer` preserves the inductive invariant. -/
theorem stateWF_inflight {st : State} {tx_hash : Nat}
    {receipt : TransactionReceipt} {bal : Nat → Nat} {tr : Transfer}
    (hWF : StateWF st) (hl : alLookup st.inflight tx_hash = some tr) :
    StateWF (handle_inflight_transfer st tx_hash receipt bal tr) := by
  by_cases h1 : receipt.status = some 1
  · have h0 : ¬ receipt.status = some 0 := by rw [h1]; simp
    obtain ⟨s, req, ts⟩ := tr
    cases req with
    | Faucet a amt =>
      have heq : handle_inflight_transfer st tx_hash receipt bal
          ⟨s, .Faucet a amt, ts⟩ =
          { st with clients := st.clients.push (bal s.address) s,
                    inflight := alRemove st.inflight tx_hash } := by
        simp [handle_inflight_transfer, h1, h0]
      rw [heq]
      exact stateWF_return_sender st tx_hash ⟨s, .Faucet a amt, ts⟩
        (bal s.address) st.transfer_queue hWF hl
    | Funding r d =>
      cases hbf : alLookup st.clients_being_funded r with
      | none =>
        have heq : handle_inflight_transfer st tx_hash receipt bal
            ⟨s, .Funding r d, ts⟩ =
            { st with clients := st.clients.push (bal s.address) s,
                      inflight := alRemove st.inflight tx_hash } := by
          simp [handle_inflight_transfer, h1, h0, hbf]
        rw [heq]
        exact stateWF_return_sender st tx_hash ⟨s, .Funding r d, ts⟩
          (bal s.address) st.transfer_queue hWF hl
      | some c =>
        rw [handle_inflight_funding_success h1 hbf]
        exact stateWF_return_sender_promote st tx_hash ⟨s, .Funding r d, ts⟩
          (bal s.address) (bal r) r c st.transfer_queue hWF hl hbf
  · obtain ⟨s, req, ts⟩ := tr
    by_cases h0 : receipt.status = some 0
    · have heq : handle_inflight_transfer st tx_hash receipt bal
          ⟨s, req, ts⟩ =
          { st with clients := st.clients.push (bal s.address) s,
                    transfer_queue := st.transfer_queue ++ [req],
                    inflight := alRemove st.inflight tx_hash } := by
        simp [handle_inflight_transfer, h1, h0]
      rw [heq]
      exact stateWF_return_sender st tx_hash ⟨s, req, ts⟩
        (bal s.address) (st.transfer_queue ++ [req]) hWF hl
    · have heq : handle_inflight_transfer st tx_hash receipt bal
          ⟨s, req, ts⟩ =
          { st with clients := st.clients.push (bal s.address) s,
                    inflight := alRemove st.inflight tx_hash } := by
        simp [handle_inflight_transfer, h1, h0]
      rw [heq]
      exact stateWF_return_sender st tx_hash ⟨s, req, ts⟩
        (bal s.address) st.transfer_queue hWF hl

/-- `handle_tx` preserves the inductive invariant. -/
theorem stateWF_handle {cfg : Options} {st : State} {tx_hash : Nat}
    {tx_to : Option Nat} {receipt : TransactionReceipt} {bal : Nat → Nat}
    (hWF : StateWF st) :
    StateWF (handle_tx cfg st tx_hash tx_to receipt bal) := by
  cases hl : alLookup st.inflight tx_hash with
  | some tr =>
    rw [handle_tx_of_inflight tx_to hl]
    exact stateWF_inflight hWF hl
  | none =>
    cases tx_to with
    | none =>
      rw [handle_tx_irrelevant hl (by simp)]
      exact hWF
    | some t =>
      cases hbf : alLookup st.clients_being_funded t with
      | none =>
        rw [handle_tx_irrelevant hl ?_]
        · exact hWF
        · intro t' ht'
          injection ht' with ht'
          exact ht' ▸ hbf
      | some c =>
        rw [handle_tx_of_external hl (by rw [hbf]; rfl)]
        exact stateWF_non_faucet hWF


theorem not_mem_alKeys_of_lookup_none {V : Type} {l : List (Nat × V)} {k : Nat}
    (h : alLookup l k = none) : k ∉ alKeys l := by
  intro hm
  have := (alLookup_isSome_iff l k).mpr hm
  rw [h] at this
  simp at this

theorem pool_member_free {st : State}
    (hcount : ∀ a, ownerCount st a ≤ 1) {a : Nat} {c : Client}
    (hc : alLookup st.clients.clients a = some c) :
    alLookup st.clients_being_funded a = none ∧ st.inflightCount a = 0 := by
  have hle := hcount a
  unfold ownerCount State.inPool State.inBeingFunded at hle
  rw [hc] at hle
  cases hb : alLookup st.clients_being_funded a with
  | some c' => rw [hb] at hle; simp at hle; exact absurd hle (by omega)
  | none =>
    rw [hb] at hle
    simp at hle
    exact ⟨rfl, by omega⟩

/-- `execute_transfer` preserves the inductive invariant, given that the
chain only reports transaction hashes that are not already inflight. -/
theorem stateWF_execute {st : State} {now : Nat} {submit : Except String Nat}
    {res : Except TransferError Nat} {st' : State} (hWF : StateWF st)
    (hfresh : ∀ h, submit = .ok h → alLookup st.inflight h = none)
    (he : execute_transfer st now submit = some (res, st')) : StateWF st' := by
  unfold execute_transfer at he
  cases hq : st.transfer_queue with
  | nil =>
    rw [hq] at he
    simp only [Option.some.injEq, Prod.mk.injEq] at he
    exact he.2 ▸ hWF
  | cons t rest =>
    rw [hq] at he
    simp only [] at he
    by_cases hhas : st.clients.has_client_for t = true
    · have hne : st.clients.priority ≠ [] := by
        intro hnil
        unfold ClientPool.has_client_for at hhas
        rw [hnil] at hhas
        simp [heapMax] at hhas
      obtain ⟨b, c, hmax, hlk, hpop, hmem, hmaxle⟩ :=
        ClientPool.pop_spec hWF.1 hne
      obtain ⟨hpool, hinfl, hbfnd, hbfaddr, hcount⟩ := hWF
      obtain ⟨hcb, hcc⟩ := pool_member_free hcount hlk
      have hWFpop : PoolWF ⟨alRemove st.clients.clients c.address,
          heapErase st.clients.priority (b, c.address)⟩ :=
        poolWF_pop ⟨hpool.1, hpool.2.1, hpool.2.2.1, hpool.2.2.2.1,
          hpool.2.2.2.2⟩ hmem hlk
      rw [if_neg (by simp [hhas]), hpop] at he
      simp only [] at he
      cases submit with
      | ok h =>
        simp only [Option.some.injEq, Prod.mk.injEq] at he
        obtain ⟨-, rfl⟩ := he
        have hfr := hfresh h rfl
        refine ⟨hWFpop, ?_, hbfnd, hbfaddr, ?_⟩
        · rw [alInsert_of_lookup_none _ hfr]
          exact List.nodup_cons.mpr
            ⟨not_mem_alKeys_of_lookup_none hfr, hinfl⟩
        · intro a
          unfold ownerCount State.inPool State.inBeingFunded
            State.inflightCount
          rw [alInsert_of_lookup_none _ hfr]
          simp only [List.countP_cons]
          unfold State.inflightCount at hcc
          by_cases ha : a = c.address
          · subst ha
            simp only [alLookup_alRemove_self hpool.1, hcb,
              Option.isSome_none, Bool.false_eq_true, if_false]
            rw [hcc]
            simp
          · have h2 : alLookup (alRemove st.clients.clients c.address) a =
                alLookup st.clients.clients a := alLookup_alRemove_ne _ ha
            have hle := hcount a
            unfold ownerCount State.inPool State.inBeingFunded
              State.inflightCount at hle
            have h3 : (decide (c.address = a)) = false := by
              simp
              exact fun hh => ha hh.symm
            simp only [h2, h3, Bool.false_eq_true, if_false]
            omega
      | error msg =>
        simp only [Option.some.injEq, Prod.mk.injEq] at he
        obtain ⟨-, rfl⟩ := he
        refine ⟨poolWF_push hWFpop b c
          (alLookup_alRemove_self hpool.1), hinfl, hbfnd, hbfaddr, ?_⟩
        intro a
        unfold ownerCount State.inPool State.inBeingFunded
          State.inflightCount
        simp only [ClientPool.push]
        have hle := hcount a
        unfold ownerCount State.inPool State.inBeingFunded
          State.inflightCount at hle
        by_cases ha : a = c.address
        · subst ha
          rw [hlk] at hle
          simp only [alLookup_alInsert_self, Option.isSome_some, if_true]
          simp at hle
          omega
        · have h2 : alLookup (alInsert (alRemove st.clients.clients
              c.address) c.address c) a =
              alLookup (alRemove st.clients.clients c.address) a :=
            alLookup_alInsert_ne _ _ ha
          have h3 : alLookup (alRemove st.clients.clients c.address) a =
              alLookup st.clients.clients a := alLookup_alRemove_ne _ ha
          simp only [h2, h3]
          omega
    · rw [if_pos (by simp [hhas])] at he
      simp only [Option.some.injEq, Prod.mk.injEq] at he
      exact he.2 ▸ hWF


/-- The timeout sweep preserves the inductive invariant. -/
theorem stateWF_timeouts {cfg : Options} {st : State} {now : Nat}
    {bal : Nat → Nat} (hWF : StateWF st) :
    StateWF (process_transaction_timeouts cfg st now bal) := by
  have main : ∀ (L : List (Nat × Transfer)) (st : State), StateWF st →
      (∀ e ∈ L, alLookup st.inflight e.1 = some e.2) →
      (alKeys L).Nodup →
      StateWF (L.foldl (timeoutStep bal) st) := by
    intro L
    induction L with
    | nil => intro st h _ _; exact h
    | cons e t ih =>
      intro st hWF hlk hnd
      simp only [alKeys, List.map_cons, List.nodup_cons] at hnd
      have hle := hlk e (List.mem_cons_self e t)
      have hstep : StateWF (timeoutStep bal st e) :=
        stateWF_return_sender st e.1 e.2 (bal e.2.sender.address)
          (st.transfer_queue ++ [e.2.request]) hWF hle
      rw [List.foldl_cons]
      refine ih _ hstep ?_ (by simpa [alKeys] using hnd.2)
      intro e' he'
      have hne : e'.1 ≠ e.1 := by
        intro h
        exact hnd.1 (h ▸ List.mem_map.mpr ⟨e', he', rfl⟩)
      show alLookup (alRemove st.inflight e.1) e'.1 = some e'.2
      rw [alLookup_alRemove_ne _ hne]
      exact hlk e' (List.mem_cons_of_mem _ he')
  refine main (timedOut cfg st now) st hWF ?_ ?_
  · intro e he
    have hmem : (e.1, e.2) ∈ st.inflight := by
      simpa using List.mem_of_mem_filter he
    exact alLookup_of_mem_nodup hWF.2.1 hmem
  · have h2 := hWF.2.1
    simp only [alKeys] at h2 ⊢
    unfold timedOut
    exact ((List.filter_sublist st.inflight).map (fun e => e.1)).nodup h2


theorem foldl_createStep_inflight (desired : Nat) (cs : List (Nat × Client)) :
    ∀ st : State, (cs.foldl (createStep desired) st).inflight =
      st.inflight := by
  induction cs with
  | nil => intro st; rfl
  | cons bc t ih =>
    intro st
    rw [List.foldl_cons, ih]
    by_cases hb : bc.1 < desired
    · simp [createStep, hb]
    · simp [createStep, hb]

theorem poolWF_foldl_push {α : Type} (b : α → Nat) (c : α → Client)
    (cs : List α) :
    ∀ p : ClientPool, PoolWF p → (cs.map (fun x => (c x).address)).Nodup →
      (∀ x ∈ cs, alLookup p.clients (c x).address = none) →
      PoolWF (cs.foldl (fun p x => p.push (b x) (c x)) p) := by
  induction cs with
  | nil => intro p h _ _; exact h
  | cons x₀ t ih =>
    intro p hWF hnd hfresh
    rw [List.map_cons, List.nodup_cons] at hnd
    rw [List.foldl_cons]
    refine ih _ (poolWF_push hWF (b x₀) (c x₀)
      (hfresh x₀ (List.mem_cons_self x₀ t))) hnd.2 ?_
    intro x hx
    have hne : (c x).address ≠ (c x₀).address := by
      intro h
      exact hnd.1 (h ▸ List.mem_map.mpr ⟨x, hx, rfl⟩)
    show alLookup (alInsert p.clients (c x₀).address (c x₀)) (c x).address
      = none
    rw [alLookup_alInsert_ne _ _ hne]
    exact hfresh x (List.mem_cons_of_mem _ hx)

theorem alKeys_nodup_foldl_alInsert {α V : Type} (key : α → Nat)
    (val : α → V) (cs : List α) :
    ∀ m : List (Nat × V), (alKeys m).Nodup →
      (alKeys (cs.foldl (fun m x => alInsert m (key x) (val x)) m)).Nodup := by
  induction cs with
  | nil => intro m h; exact h
  | cons x t ih =>
    intro m h
    rw [List.foldl_cons]
    exact ih _ (alKeys_nodup_alInsert _ _ h)

theorem pred_foldl_alInsert {α V : Type} (P : Nat × V → Prop) (key : α → Nat)
    (val : α → V) (cs : List α) (hP : ∀ x ∈ cs, P (key x, val x)) :
    ∀ m : List (Nat × V), (∀ kv ∈ m, P kv) →
      ∀ kv ∈ cs.foldl (fun m x => alInsert m (key x) (val x)) m, P kv := by
  induction cs with
  | nil => intro m h kv hkv; exact h kv hkv
  | cons x t ih =>
    intro m h kv hkv
    rw [List.foldl_cons] at hkv
    refine ih (fun x hx => hP x (List.mem_cons_of_mem _ hx)) _ ?_ kv hkv
    intro kv' hkv'
    rcases List.mem_cons.mp hkv' with rfl | hkv'
    · exact hP x (List.mem_cons_self x t)
    · exact h kv' ((alRemove_sublist _ _).mem hkv')

/-- A successful `Faucet::create` with pairwise-distinct derived addresses
establishes the inductive invariant. -/
theorem stateWF_create {cfg : Options} {addrOf balOf : Nat → Nat} {st : State}
    (haddr : ∀ i j, i < cfg.num_clients → j < cfg.num_clients →
      addrOf i = addrOf j → i = j)
    (hc : create cfg addrOf balOf = some st) : StateWF st := by
  obtain ⟨h0, hD, hst⟩ := create_some_eq hc
  set n := cfg.num_clients with hn
  set D := desiredBalance cfg ((List.range n).map balOf) with hDdef
  set f : Nat → Nat × Client := fun i => (balOf i, Client.mk (addrOf i))
    with hf
  set belowIdx := (List.range n).filter (fun i => decide (balOf i < D))
    with hbelow
  set aboveIdx := (List.range n).filter (fun i => decide (D ≤ balOf i))
    with habove
  have hmem_below : ∀ i, i ∈ belowIdx ↔ i < n ∧ balOf i < D := by
    intro i
    rw [hbelow, List.mem_filter, List.mem_range]
    simp
  have hmem_above : ∀ i, i ∈ aboveIdx ↔ i < n ∧ D ≤ balOf i := by
    intro i
    rw [habove, List.mem_filter, List.mem_range]
    simp
  have hbf : st.clients_being_funded =
      (belowIdx.map f).foldl (fun m bc => alInsert m bc.2.address bc.2) [] := by
    rw [hst, foldl_createStep_bf]
    show _ = (belowIdx.map f).foldl _ []
    unfold createClients
    rw [List.filter_map]
    rfl
  have hcl : st.clients =
      (aboveIdx.map f).foldl (fun p bc => p.push bc.1 bc.2) ⟨[], []⟩ := by
    rw [hst, foldl_createStep_clients]
    show _ = (aboveIdx.map f).foldl _ ⟨[], []⟩
    unfold createClients
    rw [List.filter_map]
    rfl
  have hinf : st.inflight = [] := by
    rw [hst, foldl_createStep_inflight]
    rfl
  have hkeys_below : ((belowIdx.map f).map (fun bc => bc.2.address)).Nodup := by
    rw [List.map_map]
    refine List.Nodup.map_on ?_ (List.Nodup.filter _ (List.nodup_range n))
    intro x hx y hy hxy
    rw [hmem_below] at hx hy
    exact haddr x y hx.1 hy.1 hxy
  have hkeys_above : ((aboveIdx.map f).map (fun bc => bc.2.address)).Nodup := by
    rw [List.map_map]
    refine List.Nodup.map_on ?_ (List.Nodup.filter _ (List.nodup_range n))
    intro x hx y hy hxy
    rw [hmem_above] at hx hy
    exact haddr x y hx.1 hy.1 hxy
  have hemptyWF : PoolWF ⟨[], []⟩ := by
    refine ⟨List.nodup_nil, List.nodup_nil, ?_, ?_, ?_⟩ <;> simp [alKeys]
  refine ⟨?_, ?_, ?_, ?_, ?_⟩
  · rw [hcl]
    exact poolWF_foldl_push _ _ (aboveIdx.map f) ⟨[], []⟩ hemptyWF hkeys_above
      (fun x _ => rfl)
  · rw [hinf]
    exact List.nodup_nil
  · rw [hbf]
    exact alKeys_nodup_foldl_alInsert _ _ (belowIdx.map f) [] List.nodup_nil
  · rw [hbf]
    refine pred_foldl_alInsert _ _ _ (belowIdx.map f) ?_ [] (by simp)
    intro x _
    rfl
  · intro a
    unfold ownerCount State.inPool State.inBeingFunded State.inflightCount
    rw [hinf]
    simp only [List.countP_nil, Nat.add_zero]
    by_cases hpa : (alLookup st.clients.clients a).isSome = true
    · rw [hcl] at hpa
      have hmem : a ∈ (aboveIdx.map f).map (fun bc => bc.2.address) := by
        by_contra hnot
        rw [alLookup_foldl_poolPush_notin _ _ _ _ _ hnot] at hpa
        simp [alLookup] at hpa
      rw [List.map_map] at hmem
      obtain ⟨i, hi, hia⟩ := List.mem_map.mp hmem
      rw [hmem_above] at hi
      have hba : (alLookup st.clients_being_funded a).isSome = false := by
        rw [hbf]
        have hnot : a ∉ (belowIdx.map f).map (fun bc => bc.2.address) := by
          intro hmem'
          rw [List.map_map] at hmem'
          obtain ⟨j, hj, hja⟩ := List.mem_map.mp hmem'
          rw [hmem_below] at hj
          obtain rfl := haddr j i hj.1 hi.1 (hja.trans hia.symm)
          omega
        rw [alLookup_foldl_alInsert_notin _ _ _ _ _ hnot]
        rfl
      rw [← hcl] at hpa
      rw [hpa, hba]
      simp
    · have hpa2 : (if (alLookup st.clients.clients a).isSome = true
          then 1 else 0) = 0 := by
        simp at hpa
        simp [hpa]
      rw [hpa2]
      split <;> omega



/-! ### Exact custody accounting: each operation preserves ownerCount -/

theorem ownerCount_return_sender_eq (st : State) (txh : Nat) (tr : Transfer)
    (ba : Nat) (q' : List TransferRequest) (hWF : StateWF st)
    (hl : alLookup st.inflight txh = some tr) :
    ∀ a, ownerCount { st with
      clients := st.clients.push ba tr.sender,
      transfer_queue := q',
      inflight := alRemove st.inflight txh } a = ownerCount st a := by
  obtain ⟨hpool, hinfl, hbf, hbfaddr, hcount⟩ := hWF
  obtain ⟨hfp, hfb, hfc⟩ := inflight_sender_free hcount hl
  intro a
  have hrem := inflightCount_alRemove hl a
  unfold State.inflightCount at hrem
  unfold ownerCount State.inPool State.inBeingFunded State.inflightCount
  simp only [ClientPool.push]
  by_cases ha : a = tr.sender.address
  · subst ha
    rw [if_pos rfl] at hrem
    unfold State.inflightCount at hfc
    simp only [alLookup_alInsert_self, hfb, hfp, Option.isSome_some,
      Option.isSome_none, Bool.false_eq_true, if_true, if_false]
    omega
  · have h1 : alLookup (alInsert st.clients.clients tr.sender.address
        tr.sender) a = alLookup st.clients.clients a :=
      alLookup_alInsert_ne _ _ ha
    rw [if_neg (fun hh => ha hh.symm)] at hrem
    simp only [h1]
    omega

theorem ownerCount_return_sender_promote_eq (st : State) (txh : Nat)
    (tr : Transfer) (ba br : Nat) (r : Nat) (c : Client)
    (q' : List TransferRequest) (hWF : StateWF st)
    (hl : alLookup st.inflight txh = some tr)
    (hbf : alLookup st.clients_being_funded r = some c) :
    ∀ a, ownerCount { st with
      clients := (st.clients.push ba tr.sender).push br c,
      clients_being_funded := alRemove st.clients_being_funded r,
      transfer_queue := q',
      inflight := alRemove st.inflight txh } a = ownerCount st a := by
  obtain ⟨hpool, hinfl, hbfnd, hbfaddr, hcount⟩ := hWF
  obtain ⟨hfp, hfb, hfc⟩ := inflight_sender_free hcount hl
  obtain ⟨hrp, hrc⟩ := being_funded_free hcount hbf
  have hca : c.address = r := hbfaddr (r, c) (alLookup_mem hbf)
  have hrA : r ≠ tr.sender.address := by
    intro h
    rw [h, hfb] at hbf
    exact Option.noConfusion hbf
  intro a
  have hrem := inflightCount_alRemove hl a
  unfold State.inflightCount at hrem
  unfold ownerCount State.inPool State.inBeingFunded State.inflightCount
  simp only [ClientPool.push, hca]
  by_cases har : a = r
  · subst har
    rw [if_neg (fun hh => hrA hh.symm)] at hrem
    unfold State.inflightCount at hrc
    simp only [alLookup_alInsert_self, alLookup_alRemove_self hbfnd, hrp,
      hbf, Option.isSome_some, Option.isSome_none, Bool.false_eq_true,
      if_true, if_false]
    omega
  · have h2 : alLookup (alInsert (alInsert st.clients.clients
        tr.sender.address tr.sender) r c) a =
        alLookup (alInsert st.clients.clients tr.sender.address tr.sender)
          a := alLookup_alInsert_ne _ _ har
    have h3 : alLookup (alRemove st.clients_being_funded r) a =
        alLookup st.clients_being_funded a := alLookup_alRemove_ne _ har
    by_cases ha : a = tr.sender.address
    · subst ha
      rw [if_pos rfl] at hrem
      unfold State.inflightCount at hfc
      simp only [h2, h3, alLookup_alInsert_self, hfb, hfp,
        Option.isSome_some, Option.isSome_none, Bool.false_eq_true,
        if_true, if_false]
      omega
    · have h4 : alLookup (alInsert st.clients.clients tr.sender.address
          tr.sender) a = alLookup st.clients.clients a :=
        alLookup_alInsert_ne _ _ ha
      rw [if_neg (fun hh => ha hh.symm)] at hrem
      simp only [h2, h3, h4]
      omega

theorem ownerCount_promote_eq (st : State) (r : Nat) (c : Client) (br : Nat)
    (q' : List TransferRequest) (hWF : StateWF st)
    (hbf : alLookup st.clients_being_funded r = some c) :
    ∀ a, ownerCount { st with
      transfer_queue := q',
      clients_being_funded := alRemove st.clients_being_funded r,
      clients := st.clients.push br c } a = ownerCount st a := by
  obtain ⟨hpool, hinfl, hbfnd, hbfaddr, hcount⟩ := hWF
  obtain ⟨hrp, hrc⟩ := being_funded_free hcount hbf
  have hca : c.address = r := hbfaddr (r, c) (alLookup_mem hbf)
  intro a
  unfold ownerCount State.inPool State.inBeingFunded State.inflightCount
  simp only [ClientPool.push, hca]
  by_cases har : a = r
  · subst har
    simp only [alLookup_alInsert_self, alLookup_alRemove_self hbfnd, hrp,
      hbf, Option.isSome_some, Option.isSome_none, Bool.false_eq_true,
      if_true, if_false]
  · have h2 : alLookup (alInsert st.clients.clients r c) a =
        alLookup st.clients.clients a := alLookup_alInsert_ne _ _ har
    have h3 : alLookup (alRemove st.clients_being_funded r) a =
        alLookup st.clients_being_funded a := alLookup_alRemove_ne _ har
    simp only [h2, h3]


theorem ownerCount_non_faucet_eq {cfg : Options} {st : State}
    {receipt : TransactionReceipt} {bal : Nat → Nat} (hWF : StateWF st) :
    ∀ a, ownerCount (handle_non_faucet_transfer cfg st receipt bal) a =
      ownerCount st a := by
  cases hto : receipt.toAddress with
  | none => simp [handle_non_faucet_transfer, hto]
  | some r =>
    cases hbf : alLookup st.clients_being_funded r with
    | none =>
      simp [handle_non_faucet_transfer, hto, hbf]
    | some c =>
      by_cases hge : cfg.min_funding_balance ≤ bal r
      · rw [handle_non_faucet_promote hto hbf hge]
        exact ownerCount_promote_eq st r c (bal r) _ hWF hbf
      · rw [handle_non_faucet_below hto hbf (by omega)]
        exact fun a => rfl

theorem ownerCount_inflight_eq {st : State} {tx_hash : Nat}
    {receipt : TransactionReceipt} {bal : Nat → Nat} {tr : Transfer}
    (hWF : StateWF st) (hl : alLookup st.inflight tx_hash = some tr) :
    ∀ a, ownerCount (handle_inflight_transfer st tx_hash receipt bal tr) a =
      ownerCount st a := by
  by_cases h1 : receipt.status = some 1
  · have h0 : ¬ receipt.status = some 0 := by rw [h1]; simp
    obtain ⟨s, req, ts⟩ := tr
    cases req with
    | Faucet a amt =>
      have heq : handle_inflight_transfer st tx_hash receipt bal
          ⟨s, .Faucet a amt, ts⟩ =
          { st with clients := st.clients.push (bal s.address) s,
                    inflight := alRemove st.inflight tx_hash } := by
        simp [handle_inflight_transfer, h1, h0]
      rw [heq]
      exact ownerCount_return_sender_eq st tx_hash ⟨s, .Faucet a amt, ts⟩
        (bal s.address) st.transfer_queue hWF hl
    | Funding r d =>
      cases hbf : alLookup st.clients_being_funded r with
      | none =>
        have heq : handle_inflight_transfer st tx_hash receipt bal
            ⟨s, .Funding r d, ts⟩ =
            { st with clients := st.clients.push (bal s.address) s,
                      inflight := alRemove st.inflight tx_hash } := by
          simp [handle_inflight_transfer, h1, h0, hbf]
        rw [heq]
        exact ownerCount_return_sender_eq st tx_hash ⟨s, .Funding r d, ts⟩
          (bal s.address) st.transfer_queue hWF hl
      | some c =>
        rw [handle_inflight_funding_success h1 hbf]
        exact ownerCount_return_sender_promote_eq st tx_hash
          ⟨s, .Funding r d, ts⟩ (bal s.address) (bal r) r c
          st.transfer_queue hWF hl hbf
  · obtain ⟨s, req, ts⟩ := tr
    by_cases h0 : receipt.status = some 0
    · have heq : handle_inflight_transfer st tx_hash receipt bal
          ⟨s, req, ts⟩ =
          { st with clients := st.clients.push (bal s.address) s,
                    transfer_queue := st.transfer_queue ++ [req],
                    inflight := alRemove st.inflight tx_hash } := by
        simp [handle_inflight_transfer, h1, h0]
      rw [heq]
      exact ownerCount_return_sender_eq st tx_hash ⟨s, req, ts⟩
        (bal s.address) (st.transfer_queue ++ [req]) hWF hl
    · have heq : handle_inflight_transfer st tx_hash receipt bal
          ⟨s, req, ts⟩ =
          { st with clients := st.clients.push (bal s.address) s,
                    inflight := alRemove st.inflight tx_hash } := by
        simp [handle_inflight_transfer, h1, h0]
      rw [heq]
      exact ownerCount_return_sender_eq st tx_hash ⟨s, req, ts⟩
        (bal s.address) st.transfer_queue hWF hl

theorem ownerCount_handle_eq {cfg : Options} {st : State} {tx_hash : Nat}
    {tx_to : Option Nat} {receipt : TransactionReceipt} {bal : Nat → Nat}
    (hWF : StateWF st) :
    ∀ a, ownerCount (handle_tx cfg st tx_hash tx_to receipt bal) a =
      ownerCount st a := by
  cases hl : alLookup st.inflight tx_hash with
  | some tr =>
    rw [handle_tx_of_inflight tx_to hl]
    exact ownerCount_inflight_eq hWF hl
  | none =>
    cases tx_to with
    | none =>
      rw [handle_tx_irrelevant hl (by simp)]
      exact fun a => rfl
    | some t =>
      cases hbf : alLookup st.clients_being_funded t with
      | none =>
        rw [handle_tx_irrelevant hl ?_]
        · exact fun a => rfl
        · intro t' ht'
          injection ht' with ht'
          exact ht' ▸ hbf
      | some c =>
        rw [handle_tx_of_external hl (by rw [hbf]; rfl)]
        exact ownerCount_non_faucet_eq hWF


theorem ownerCount_execute_eq {st : State} {now : Nat}
    {submit : Except String Nat} {res : Except TransferError Nat}
    {st' : State} (hWF : StateWF st)
    (hfresh : ∀ h, submit = .ok h → alLookup st.inflight h = none)
    (he : execute_transfer st now submit = some (res, st')) :
    ∀ a, ownerCount st' a = ownerCount st a := by
  unfold execute_transfer at he
  cases hq : st.transfer_queue with
  | nil =>
    rw [hq] at he
    simp only [Option.some.injEq, Prod.mk.injEq] at he
    intro a
    rw [← he.2]
  | cons t rest =>
    rw [hq] at he
    simp only [] at he
    by_cases hhas : st.clients.has_client_for t = true
    · have hne : st.clients.priority ≠ [] := by
        intro hnil
        unfold ClientPool.has_client_for at hhas
        rw [hnil] at hhas
        simp [heapMax] at hhas
      obtain ⟨b, c, hmax, hlk, hpop, hmem, hmaxle⟩ :=
        ClientPool.pop_spec hWF.1 hne
      obtain ⟨hpool, hinfl, hbfnd, hbfaddr, hcount⟩ := hWF
      obtain ⟨hcb, hcc⟩ := pool_member_free hcount hlk
      rw [if_neg (by simp [hhas]), hpop] at he
      simp only [] at he
      cases submit with
      | ok h =>
        simp only [Option.some.injEq, Prod.mk.injEq] at he
        obtain ⟨-, rfl⟩ := he
        have hfr := hfresh h rfl
        intro a
        unfold ownerCount State.inPool State.inBeingFunded
          State.inflightCount
        rw [alInsert_of_lookup_none _ hfr]
        simp only [List.countP_cons]
        unfold State.inflightCount at hcc
        by_cases ha : a = c.address
        · subst ha
          simp only [alLookup_alRemove_self hpool.1, hcb, hlk,
            Option.isSome_none, Option.isSome_some, Bool.false_eq_true,
            if_true, if_false]
          rw [hcc]
          simp
        · have h2 : alLookup (alRemove st.clients.clients c.address) a =
              alLookup st.clients.clients a := alLookup_alRemove_ne _ ha
          have h3 : (decide (c.address = a)) = false := by
            simp
            exact fun hh => ha hh.symm
          simp only [h2, h3, Bool.false_eq_true, if_false]
          omega
      | error msg =>
        simp only [Option.some.injEq, Prod.mk.injEq] at he
        obtain ⟨-, rfl⟩ := he
        intro a
        unfold ownerCount State.inPool State.inBeingFunded
          State.inflightCount
        simp only [ClientPool.push]
        by_cases ha : a = c.address
        · subst ha
          simp only [alLookup_alInsert_self, hlk, Option.isSome_some,
            if_true]
        · have h2 : alLookup (alInsert (alRemove st.clients.clients
              c.address) c.address c) a =
              alLookup (alRemove st.clients.clients c.address) a :=
            alLookup_alInsert_ne _ _ ha
          have h3 : alLookup (alRemove st.clients.clients c.address) a =
              alLookup st.clients.clients a := alLookup_alRemove_ne _ ha
          simp only [h2, h3]
    · rw [if_pos (by simp [hhas])] at he
      simp only [Option.some.injEq, Prod.mk.injEq] at he
      intro a
      rw [← he.2]

theorem ownerCount_timeouts_eq {cfg : Options} {st : State} {now : Nat}
    {bal : Nat → Nat} (hWF : StateWF st) :
    ∀ a, ownerCount (process_transaction_timeouts cfg st now bal) a =
      ownerCount st a := by
  have main : ∀ (L : List (Nat × Transfer)) (st : State), StateWF st →
      (∀ e ∈ L, alLookup st.inflight e.1 = some e.2) →
      (alKeys L).Nodup →
      ∀ a, ownerCount (L.foldl (timeoutStep bal) st) a = ownerCount st a := by
    intro L
    induction L with
    | nil => intro st _ _ _ a; rfl
    | cons e t ih =>
      intro st hWF hlk hnd a
      simp only [alKeys, List.map_cons, List.nodup_cons] at hnd
      have hle := hlk e (List.mem_cons_self e t)
      have hstep : StateWF (timeoutStep bal st e) :=
        stateWF_return_sender st e.1 e.2 (bal e.2.sender.address)
          (st.transfer_queue ++ [e.2.request]) hWF hle
      have hlk' : ∀ e' ∈ t,
          alLookup (timeoutStep bal st e).inflight e'.1 = some e'.2 := by
        intro e' he'
        have hne : e'.1 ≠ e.1 := by
          intro h
          exact hnd.1 (h ▸ List.mem_map.mpr ⟨e', he', rfl⟩)
        show alLookup (alRemove st.inflight e.1) e'.1 = some e'.2
        rw [alLookup_alRemove_ne _ hne]
        exact hlk e' (List.mem_cons_of_mem _ he')
      rw [List.foldl_cons,
        ih _ hstep hlk' (by simpa [alKeys] using hnd.2) a]
      exact ownerCount_return_sender_eq st e.1 e.2 (bal e.2.sender.address)
        (st.transfer_queue ++ [e.2.request]) hWF hle a
  refine main (timedOut cfg st now) st hWF ?_ ?_
  · intro e he
    have hmem : (e.1, e.2) ∈ st.inflight := by
      simpa using List.mem_of_mem_filter he
    exact alLookup_of_mem_nodup hWF.2.1 hmem
  · have h2 := hWF.2.1
    simp only [alKeys] at h2 ⊢
    unfold timedOut
    exact ((List.filter_sublist st.inflight).map (fun e => e.1)).nodup h2


/-- After a successful `Faucet::create` with pairwise-distinct derived
addresses, every derived address is held by exactly one container and every
other address by none. -/
theorem ownerCount_create {cfg : Options} {addrOf balOf : Nat → Nat}
    {st : State}
    (haddr : ∀ i j, i < cfg.num_clients → j < cfg.num_clients →
      addrOf i = addrOf j → i = j)
    (hc : create cfg addrOf balOf = some st) :
    ∀ a, ownerCount st a =
      if ∃ i ∈ List.range cfg.num_clients, addrOf i = a then 1 else 0 := by
  obtain ⟨h0, hD, hst⟩ := create_some_eq hc
  set n := cfg.num_clients with hn
  set D := desiredBalance cfg ((List.range n).map balOf) with hDdef
  set f : Nat → Nat × Client := fun i => (balOf i, Client.mk (addrOf i))
    with hf
  set belowIdx := (List.range n).filter (fun i => decide (balOf i < D))
    with hbelow
  set aboveIdx := (List.range n).filter (fun i => decide (D ≤ balOf i))
    with habove
  have hmem_below : ∀ i, i ∈ belowIdx ↔ i < n ∧ balOf i < D := by
    intro i
    rw [hbelow, List.mem_filter, List.mem_range]
    simp
  have hmem_above : ∀ i, i ∈ aboveIdx ↔ i < n ∧ D ≤ balOf i := by
    intro i
    rw [habove, List.mem_filter, List.mem_range]
    simp
  have hbf : st.clients_being_funded =
      (belowIdx.map f).foldl (fun m bc => alInsert m bc.2.address bc.2) [] := by
    rw [hst, foldl_createStep_bf]
    show _ = (belowIdx.map f).foldl _ []
    unfold createClients
    rw [List.filter_map]
    rfl
  have hcl : st.clients =
      (aboveIdx.map f).foldl (fun p bc => p.push bc.1 bc.2) ⟨[], []⟩ := by
    rw [hst, foldl_createStep_clients]
    show _ = (aboveIdx.map f).foldl _ ⟨[], []⟩
    unfold createClients
    rw [List.filter_map]
    rfl
  have hinf : st.inflight = [] := by
    rw [hst, foldl_createStep_inflight]
    rfl
  have hkeys_below : ((belowIdx.map f).map (fun bc => bc.2.address)).Nodup := by
    rw [List.map_map]
    refine List.Nodup.map_on ?_ (List.Nodup.filter _ (List.nodup_range n))
    intro x hx y hy hxy
    rw [hmem_below] at hx hy
    exact haddr x y hx.1 hy.1 hxy
  have hkeys_above : ((aboveIdx.map f).map (fun bc => bc.2.address)).Nodup := by
    rw [List.map_map]
    refine List.Nodup.map_on ?_ (List.Nodup.filter _ (List.nodup_range n))
    intro x hx y hy hxy
    rw [hmem_above] at hx hy
    exact haddr x y hx.1 hy.1 hxy
  have hnot_above : ∀ i, i < n → balOf i < D →
      addrOf i ∉ (aboveIdx.map f).map (fun bc => bc.2.address) := by
    intro i hi hbi hmem
    rw [List.map_map] at hmem
    obtain ⟨j, hj, hja⟩ := List.mem_map.mp hmem
    rw [hmem_above] at hj
    obtain rfl := haddr j i hj.1 hi hja
    omega
  have hnot_below : ∀ i, i < n → D ≤ balOf i →
      addrOf i ∉ (belowIdx.map f).map (fun bc => bc.2.address) := by
    intro i hi hbi hmem
    rw [List.map_map] at hmem
    obtain ⟨j, hj, hja⟩ := List.mem_map.mp hmem
    rw [hmem_below] at hj
    obtain rfl := haddr j i hj.1 hi hja
    omega
  intro a
  unfold ownerCount State.inPool State.inBeingFunded State.inflightCount
  rw [hinf]
  simp only [List.countP_nil, Nat.add_zero]
  by_cases hex : ∃ i ∈ List.range n, addrOf i = a
  · rw [if_pos hex]
    obtain ⟨i, hirange, rfl⟩ := hex
    have hi : i < n := List.mem_range.mp hirange
    by_cases hbi : balOf i < D
    · have hbfl : alLookup st.clients_being_funded (addrOf i) =
          some ⟨addrOf i⟩ := by
        rw [hbf]
        exact alLookup_foldl_alInsert_mem _ _ (belowIdx.map f) []
          hkeys_below (f i)
          (List.mem_map.mpr ⟨i, (hmem_below i).mpr ⟨hi, hbi⟩, rfl⟩)
      have hpl : alLookup st.clients.clients (addrOf i) = none := by
        rw [hcl,
          alLookup_foldl_poolPush_notin _ _ _ _ _ (hnot_above i hi hbi)]
        rfl
      simp [hbfl, hpl]
    · have hpl : alLookup st.clients.clients (addrOf i) =
          some ⟨addrOf i⟩ := by
        rw [hcl]
        exact alLookup_foldl_poolPush_mem _ _ (aboveIdx.map f) ⟨[], []⟩
          hkeys_above (f i)
          (List.mem_map.mpr ⟨i, (hmem_above i).mpr ⟨hi, by omega⟩, rfl⟩)
      have hbfl : alLookup st.clients_being_funded (addrOf i) = none := by
        rw [hbf,
          alLookup_foldl_alInsert_notin _ _ _ _ _
            (hnot_below i hi (by omega))]
        rfl
      simp [hbfl, hpl]
  · rw [if_neg hex]
    push_neg at hex
    have hpl : alLookup st.clients.clients a = none := by
      rw [hcl]
      have hnot : a ∉ (aboveIdx.map f).map (fun bc => bc.2.address) := by
        intro hmem
        rw [List.map_map] at hmem
        obtain ⟨j, hj, hja⟩ := List.mem_map.mp hmem
        rw [hmem_above] at hj
        exact hex j (List.mem_range.mpr hj.1) hja
      rw [alLookup_foldl_poolPush_notin _ _ _ _ _ hnot]
      rfl
    have hbfl : alLookup st.clients_being_funded a = none := by
      rw [hbf]
      have hnot : a ∉ (belowIdx.map f).map (fun bc => bc.2.address) := by
        intro hmem
        rw [List.map_map] at hmem
        obtain ⟨j, hj, hja⟩ := List.mem_map.mp hmem
        rw [hmem_below] at hj
        exact hex j (List.mem_range.mpr hj.1) hja
      rw [alLookup_foldl_alInsert_notin _ _ _ _ _ hnot]
      rfl
    simp [hbfl, hpl]

/-! ### Claim C1: exclusive custody -/

/-- Claim C1: in every state reachable by `create`, `execute_transfer`,
`handle_tx` (including `handle_non_faucet_transfer`) and
`process_transaction_timeouts`, each managed account (an address derived at
construction) resides in exactly one of the pool, the being-funded map and
the inflight senders, and every other address in none — `ownerCount` counts
the pool occurrence, the being-funded occurrence and every inflight entry
whose sender has the given address, so a count of exactly one means the
account's client is held by precisely one container (never lost, never
duplicated, never the sender of two inflight entries). -/
theorem exclusive_custody :
    ∀ (cfg : Options) (addrOf balOf : Nat → Nat) (st : State),
      Reachable cfg addrOf balOf st →
      ∀ a, ownerCount st a =
        if ∃ i ∈ List.range cfg.num_clients, addrOf i = a then 1 else 0 := by
  intro cfg addrOf balOf st hr
  have hmain : StateWF st ∧ ∀ a, ownerCount st a =
      if ∃ i ∈ List.range cfg.num_clients, addrOf i = a then 1 else 0 := by
    induction hr with
    | created st haddr hc =>
      exact ⟨stateWF_create haddr hc, ownerCount_create haddr hc⟩
    | executed st now submit res st' hr hfresh he ih =>
      exact ⟨stateWF_execute ih.1 hfresh he,
        fun a => (ownerCount_execute_eq ih.1 hfresh he a).trans (ih.2 a)⟩
    | handled st tx_hash tx_to receipt bal hr ih =>
      exact ⟨stateWF_handle ih.1,
        fun a => (ownerCount_handle_eq ih.1 a).trans (ih.2 a)⟩
    | timedout st now bal hr ih =>
      exact ⟨stateWF_timeouts ih.1,
        fun a => (ownerCount_timeouts_eq ih.1 a).trans (ih.2 a)⟩
  exact hmain.2

/-- Witness for exclusive custody at the state created by a one-client
configuration (address 0, balance 5, grant 1): the single managed address 0
is held by exactly one container. -/
theorem exclusive_custody_witness :
    ownerCount (State.mk ⟨[(0, ⟨0⟩)], [(5, 0)]⟩ [] [] [] false) 0 =
      (if ∃ i ∈ List.range 1, i = 0 then 1 else 0) :=
  exclusive_custody ⟨1, 1, 0⟩ (fun i => i) (fun _ => 5) _
    (Reachable.created _ (fun i j _ _ h => h) (by rfl)) 0

end DiscordFaucet
